import Mathlib

/-!
Verification of the scan-index-filter engine of the VSCode Workspace Launcher
(`pyVSCodeLauncher.py`).

The development shallowly embeds the core of the program:

* `readDesc`        — the per-file descriptor reader inside `ScanWorker.run`
* `walkDir`         — the recursive tree walk of `ScanWorker.run` (os.walk with
                      directory pruning, per-file error skipping, cooperative
                      cancellation polled once per directory, final sort)
* `scanRun`         — the whole `ScanWorker.run` body producing a terminal
                      signal (`finished` or `error`)
* `coordStep`       — `MainWindow.start_scan` / `on_scan_finished` /
                      `on_scan_error` generation bookkeeping
* `filterAcceptsRow`— `WorkspaceFilterProxyModel.filterAcceptsRow` plus its
                      setter methods
* `updateMru` / `togglePin` — `MainWindow._update_mru` / `on_toggle_pin`
* `repairDoc` / `repairPass` — `MainWindow.on_fix_workspaces`

Python strings are `List Char`; `str.lower` is mapped to `Char.toLower`
(ASCII case folding; the Unicode tables of CPython are out of scope), and
whitespace stripping uses `Char.isWhitespace`.  JSON documents parsed by
`json.loads` are the inductive `JVal`; JSON objects are association lists in
insertion order, matching Python dict semantics (`jGet` first match, `jSet`
in-place update or append).  Numeric literals are carried as `Int` (float
formatting is irrelevant to every property below).  Filesystem trees are the
inductive `FSTree`; a file whose read, parse or stat raises is a `FileNode`
with `data = none`.  Cancellation is cooperative and polled once per visited
directory, so it is modelled by the index of the first directory-boundary
check at which the flag is observed set (`none` = never observed).
-/

namespace VSCL

/-- Python strings, as lists of characters. -/
abbrev Str := List Char

/-- Python `str.lower` (ASCII case folding). -/
def lowerStr (s : Str) : Str := s.map Char.toLower

/-- Python `str.strip()`: drop whitespace at both ends. -/
def strip (s : Str) : Str :=
  ((s.dropWhile Char.isWhitespace).reverse.dropWhile Char.isWhitespace).reverse

/-- Does `pat` occur at the start of `s`?  Helper for substring search. -/
def startsStr : Str → Str → Bool
  | [], _ => true
  | _ :: _, [] => false
  | a :: as, b :: bs => a = b && startsStr as bs

/-- Python `pat in s` for strings: `pat` occurs contiguously inside `s`. -/
def hasSub (pat : Str) : Str → Bool
  | [] => startsStr pat []
  | c :: rest => startsStr pat (c :: rest) || hasSub pat rest

/-- Lexicographic (code-point) order on strings, Python `s1 < s2`. -/
def strLtB : Str → Str → Bool
  | [], [] => false
  | [], _ :: _ => true
  | _ :: _, [] => false
  | a :: as, b :: bs => if a = b then strLtB as bs else decide (a < b)

/-- Lexicographic (code-point) order on strings, Python `s1 <= s2`. -/
def strLeB : Str → Str → Bool
  | [], _ => true
  | _ :: _, [] => false
  | a :: as, b :: bs => if a = b then strLeB as bs else decide (a < b)

/-- JSON values as returned by `json.loads`.  Objects are association lists
in insertion order (Python dicts preserve insertion order); numbers carry an
integer value (no property below depends on numerics or floats). -/
inductive JVal : Type where
  | jnull
  | jbool (b : Bool)
  | jnum (n : Int)
  | jstr (s : Str)
  | jarr (elems : List JVal)
  | jobj (fields : List (Str × JVal))

/-- Comma-separated join, as in Python container reprs. -/
def commaJoin : List Str → Str
  | [] => []
  | [x] => x
  | x :: rest => x ++ (',' :: ' ' :: commaJoin rest)

/-- Python `repr` of a JSON value (string escaping inside quotes is elided;
no theorem below depends on the repr of container or numeric values, only on
`str` being the identity on strings and nonempty on everything else). -/
def pyRepr : JVal → Str
  | .jnull => ("None").data
  | .jbool true => ("True").data
  | .jbool false => ("False").data
  | .jnum n => (toString n).data
  | .jstr s => '\'' :: s ++ ['\'']
  | .jarr xs => '[' :: commaJoin (xs.attach.map (fun x => pyRepr x.1)) ++ [']']
  | .jobj kvs =>
      '\x7b' :: commaJoin (kvs.attach.map
        (fun q => ('\'' :: q.1.1 ++ ['\'', ':', ' ']) ++ pyRepr q.1.2)) ++ ['\x7d']
decreasing_by
  · have := List.sizeOf_lt_of_mem x.2
    simp at this ⊢; omega
  · rcases q with ⟨⟨k, v⟩, hm⟩
    have := List.sizeOf_lt_of_mem hm
    simp at this ⊢; omega

/-- Python `str()` applied to a JSON value: the identity on strings, the
repr on everything else. -/
def pyStr (v : JVal) : Str :=
  match v with
  | .jstr s => s
  | _ => pyRepr v

/-- Python `d.get(k)` on a JSON object: first (and in a parsed document,
only) binding of the key. -/
def jGet (kvs : List (Str × JVal)) (k : Str) : Option JVal :=
  match kvs with
  | [] => none
  | (k', v) :: rest => if k' = k then some v else jGet rest k

/-- Python `d[k] = v` on a JSON object: update in place if the key exists
(keeping its position, as dicts do), else append. -/
def jSet (kvs : List (Str × JVal)) (k : Str) (v : JVal) : List (Str × JVal) :=
  if (jGet kvs k).isSome then
    kvs.map (fun q => if q.1 = k then (k, v) else q)
  else kvs ++ [(k, v)]

/-- Python truthiness of a JSON value (`bool(x)`). -/
def jTruthy : JVal → Bool
  | .jnull => false
  | .jbool b => b
  | .jnum n => decide (n ≠ 0)
  | .jstr s => decide (s ≠ [])
  | .jarr xs => !xs.isEmpty
  | .jobj kvs => !kvs.isEmpty

def keyMeta : Str := ("meta").data
def keyDescription : Str := ("description").data
def keyTags : Str := ("tags").data
def keyFolders : Str := ("folders").data
def keySettings : Str := ("settings").data
def keyPath : Str := ("path").data

/-- The descriptor reader inside `ScanWorker.run`: given the parsed JSON of
one candidate file, compute `(description, tags)` exactly as the code does —
prefer `meta.description` (stringified), fall back to the top-level
`description` when that is empty, and read `meta.tags` only when it is a
list. -/
def readDesc (data : JVal) : Str × List Str :=
  match data with
  | .jobj kvs =>
    let fromMeta :=
      match jGet kvs keyMeta with
      | some (.jobj m) =>
        let d := match jGet m keyDescription with
                 | some v => pyStr v
                 | none => []
        let t := match jGet m keyTags with
                 | some (.jarr xs) => xs.map pyStr
                 | _ => []
        (d, t)
      | _ => (([] : Str), ([] : List Str))
    let desc :=
      if fromMeta.1 = [] then
        match jGet kvs keyDescription with
        | some v => pyStr v
        | none => []
      else fromMeta.1
    (desc, fromMeta.2)
  | _ => (([] : Str), ([] : List Str))

/-- Python `pathlib.PurePath.stem`: the file name without its final suffix;
a dot at position 0 or in final position does not start a suffix. -/
def stem (n : Str) : Str :=
  match n.reverse.findIdx? (fun c => c = '.') with
  | none => n
  | some j =>
    let i := n.length - 1 - j
    if 0 < i ∧ i < n.length - 1 then n.take i else n

/-- One catalog entry (`WorkspaceInfo`). -/
structure WInfo where
  name : Str
  path : Str
  description : Str
  mtime : Int
  tags : List Str
deriving DecidableEq

/-- One file on disk: its name, and `some (parsed JSON, mtime)` when
reading, parsing and stat all succeed, `none` when any of them raises. -/
structure FileNode where
  name : Str
  data : Option (JVal × Int)

/-- A directory: its regular files and its named subdirectories. -/
inductive FSTree : Type where
  | mk (files : List FileNode) (subs : List (Str × FSTree))

instance : Inhabited FSTree := ⟨.mk [] []⟩

/-- The fixed directory-name exclusion set of `ScanWorker`. -/
def skipNames : List Str :=
  [(".git").data, (".hg").data, (".svn").data, ("node_modules").data,
   ("venv").data, (".tox").data, (".mypy_cache").data]

/-- The recognised descriptor extension. -/
def extStr : Str := (".code-workspace").data

/-- `Path(dirpath) / name`. -/
def joinPath (dp : Str) (n : Str) : Str := dp ++ '/' :: n

/-- Mutable state of the walk loop: accumulated rows, accepted-entry count
(feeding the progress signal), and the number of directory-boundary
cancellation checks performed so far. -/
structure WalkSt where
  rows : List WInfo
  count : Nat
  tick : Nat
deriving DecidableEq

/-- The body of the inner `for name in filenames` loop: on a matching
extension, try to read/parse the file; on success append a row, on any
exception skip the file and continue. -/
def procFile (dp : Str) (st : WalkSt) (f : FileNode) : WalkSt :=
  if extStr.isSuffixOf f.name then
    match f.data with
    | some (j, mt) =>
      let dt := readDesc j
      { st with
        rows := st.rows ++ [⟨stem f.name, joinPath dp f.name, dt.1, mt, dt.2⟩],
        count := st.count + 1 }
    | none => st
  else st

/-- Is the cancellation flag observed set at the check with index `tick`?
`c = some k` models the flag becoming visible from the `k`-th
directory-boundary check onwards; `none` models a flag never observed. -/
def checkCancel (c : Option Nat) (tick : Nat) : Bool :=
  match c with
  | some k => decide (k ≤ tick)
  | none => false

/-- Outcome of the walk loop: ran to completion, or stopped at a
directory-boundary cancellation check. -/
inductive WalkRes : Type where
  | done (st : WalkSt)
  | cancelled (st : WalkSt)
deriving DecidableEq

mutual
/-- The `os.walk` loop of `ScanWorker.run`: process the files of the current
directory, poll the cancellation flag once, then descend into the
non-excluded subdirectories (pruning happens before recursion). -/
def walkDir (c : Option Nat) (dp : Str) (t : FSTree) (st : WalkSt) : WalkRes :=
  match t with
  | .mk files subs =>
    let st1 := files.foldl (procFile dp) st
    if checkCancel c st1.tick then .cancelled { st1 with tick := st1.tick + 1 }
    else walkSubs c dp subs { st1 with tick := st1.tick + 1 }

/-- Descend into the subdirectories in order, skipping excluded names. -/
def walkSubs (c : Option Nat) (dp : Str) (subs : List (Str × FSTree))
    (st : WalkSt) : WalkRes :=
  match subs with
  | [] => .done st
  | (n, t) :: rest =>
    if skipNames.contains n then walkSubs c dp rest st
    else
      match walkDir c (joinPath dp n) t st with
      | .done st' => walkSubs c dp rest st'
      | .cancelled st' => .cancelled st'
end

/-- The key of the final `rows.sort(...)`: `(name.lower(), str(path).lower())`
compared lexicographically, Python tuple order. -/
def rowLE (a b : WInfo) : Bool :=
  if lowerStr a.name = lowerStr b.name then strLeB (lowerStr a.path) (lowerStr b.path)
  else strLtB (lowerStr a.name) (lowerStr b.name)

/-- `rows.sort(key=lambda w: (w.name.lower(), str(w.path).lower()))`. -/
def sortRows (rows : List WInfo) : List WInfo := rows.mergeSort rowLE

/-- The terminal signals a `ScanWorker` can emit (`progress` emissions are
interleaved observations, not terminal, and are not modelled). -/
inductive Signal : Type where
  | finished (rows : List WInfo) (gen : Nat)
  | error (msg : Str) (gen : Nat)
deriving DecidableEq

/-- The whole `ScanWorker.run`: a missing root completes immediately with an
empty result; a cancelled walk emits `finished([], gen)`; a completed walk
sorts its rows and emits `finished(rows, gen)`. -/
def scanRun (c : Option Nat) (rootPath : Str) (root : Option FSTree)
    (g : Nat) : Signal :=
  match root with
  | none => .finished [] g
  | some t =>
    match walkDir c rootPath t ⟨[], 0, 0⟩ with
    | .cancelled _ => .finished [] g
    | .done st => .finished (sortRows st.rows) g

/-- The entry a single file contributes, if any (specification companion of
`procFile`, used to characterise the walk). -/
def entryOf (dp : Str) (f : FileNode) : Option WInfo :=
  if extStr.isSuffixOf f.name then
    match f.data with
    | some (j, mt) =>
      let dt := readDesc j
      some ⟨stem f.name, joinPath dp f.name, dt.1, mt, dt.2⟩
    | none => none
  else none

mutual
/-- All entries an uncancelled walk of `t` rooted at `dp` accepts, in walk
order. -/
def rowsOfTree (dp : Str) (t : FSTree) : List WInfo :=
  match t with
  | .mk files subs => files.filterMap (entryOf dp) ++ rowsOfSubs dp subs

/-- Entries contributed by a list of subdirectories, excluded names
skipped. -/
def rowsOfSubs (dp : Str) (subs : List (Str × FSTree)) : List WInfo :=
  match subs with
  | [] => []
  | (n, t) :: rest =>
    if skipNames.contains n then rowsOfSubs dp rest
    else rowsOfTree (joinPath dp n) t ++ rowsOfSubs dp rest
end

/-- A name a real filesystem can give a directory entry: no path
separator. -/
def slashFree (s : Str) : Bool := !s.contains '/'

/-- The path text contributed by a component list: `/c1/c2/.../cn`. -/
def flatC (cs : List Str) : Str := cs.flatMap (fun c => '/' :: c)

/-- The path of row `r` decomposes below directory `dp` into the non-empty,
slash-free component list `cs`. -/
def goodComps (dp : Str) (r : WInfo) (cs : List Str) : Prop :=
  cs ≠ [] ∧ (∀ c ∈ cs, slashFree c = true) ∧ r.path = dp ++ flatC cs

mutual
/-- Well-formedness of a modelled directory tree, as guaranteed by a real
filesystem: sibling file names are distinct and slash-free, sibling
directory names are distinct and slash-free, recursively. -/
def treeWFb (t : FSTree) : Bool :=
  match t with
  | .mk files subs =>
    (files.map FileNode.name).Nodup &&
    (files.map FileNode.name).all slashFree &&
    (subs.map Prod.fst).Nodup &&
    (subs.map Prod.fst).all slashFree &&
    subsWFb subs

def subsWFb (subs : List (Str × FSTree)) : Bool :=
  match subs with
  | [] => true
  | (_, t) :: rest => treeWFb t && subsWFb rest
end

mutual
/-- No file anywhere in the tree carries the recognised extension. -/
def noDescFilesB (t : FSTree) : Bool :=
  match t with
  | .mk files subs =>
    files.all (fun f => !extStr.isSuffixOf f.name) && noDescFilesSubsB subs

def noDescFilesSubsB (subs : List (Str × FSTree)) : Bool :=
  match subs with
  | [] => true
  | (_, t) :: rest => noDescFilesB t && noDescFilesSubsB rest
end

mutual
/-- The same tree with every unreadable/unparsable file removed. -/
def dropBad (t : FSTree) : FSTree :=
  match t with
  | .mk files subs => .mk (files.filter (fun f => f.data.isSome)) (dropBadSubs subs)

def dropBadSubs (subs : List (Str × FSTree)) : List (Str × FSTree) :=
  match subs with
  | [] => []
  | (n, t) :: rest => (n, dropBad t) :: dropBadSubs rest
end

/-! ## Filter/Sort view (`WorkspaceFilterProxyModel`) -/

def modeAll : Str := ("All").data
def modePinned : Str := ("Pinned").data
def modeRecent : Str := ("Recent").data

/-- The filter state of the proxy model: stored pattern (already stripped
and lowered by the setter), mode string, tag, and the two membership sets. -/
structure ProxySt where
  pattern : Str
  mode : Str
  tag : Str
  pinned : List Str
  mru : List Str

/-- `WorkspaceFilterProxyModel.__init__`. -/
def initProxy : ProxySt :=
  { pattern := [], mode := modeAll, tag := [], pinned := [], mru := [] }

/-- `setFilterText`: `self._pattern = (text or "").strip().lower()`. -/
def setFilterText (st : ProxySt) (text : Str) : ProxySt :=
  { st with pattern := lowerStr (strip text) }

/-- `setFilterMode`: `self._mode = mode or "All"`. -/
def setFilterMode (st : ProxySt) (mode : Str) : ProxySt :=
  { st with mode := if mode = [] then modeAll else mode }

/-- `setTagFilter`: `self._tag = tag or ""`. -/
def setTagFilter (st : ProxySt) (tag : Str) : ProxySt :=
  { st with tag := tag }

/-- `setPinnedSet` (membership in a Python `set` of the given paths). -/
def setPinnedSet (st : ProxySt) (ps : List Str) : ProxySt :=
  { st with pinned := ps }

/-- `setMruSet`. -/
def setMruSet (st : ProxySt) (ps : List Str) : ProxySt :=
  { st with mru := ps }

/-- `filterAcceptsRow`, with its three short-circuiting checks in source
order: text pattern, mode, tag. -/
def filterAcceptsRow (st : ProxySt) (ws : WInfo) : Bool :=
  if st.pattern ≠ [] &&
     !(hasSub st.pattern (lowerStr ws.name) ||
       hasSub st.pattern (lowerStr ws.description) ||
       hasSub st.pattern (lowerStr ws.path)) then false
  else if st.mode = modePinned && !(st.pinned.contains ws.path) then false
  else if st.mode = modeRecent && !(st.mru.contains ws.path) then false
  else if st.tag ≠ [] && !((ws.tags.map lowerStr).contains (lowerStr st.tag)) then
    false
  else true

/-- What the proxy emits: the source rows that pass `filterAcceptsRow`, in
source order (the proxy never sorts). -/
def applyFilter (st : ProxySt) (rows : List WInfo) : List WInfo :=
  rows.filter (filterAcceptsRow st)

/-- The proxy state reached from a fresh proxy by pushing one full query
through the setters, as the application does. -/
def proxyFromQuery (text mode tag : Str) (pinned mru : List Str) : ProxySt :=
  setMruSet (setPinnedSet (setTagFilter (setFilterMode
    (setFilterText initProxy text) mode) tag) pinned) mru

/-- Case-insensitive substring occurrence, the spec's reading. -/
def occursCI (pat s : Str) : Prop := hasSub (lowerStr pat) (lowerStr s) = true

/-- The acceptance predicate exactly as the claim words it (spec side, for
comparison with the code): non-empty `text` must occur case-insensitively in
name, description or path; mode `Pinned`/`Recent` restricts to the
respective set; non-empty `tag` must be a case-insensitive member of the
entry's tags. -/
def specAccepts (text mode tag : Str) (pinned mru : List Str)
    (ws : WInfo) : Prop :=
  (text ≠ [] → occursCI text ws.name ∨ occursCI text ws.description ∨
               occursCI text ws.path) ∧
  (mode = modePinned → ws.path ∈ pinned) ∧
  (mode = modeRecent → ws.path ∈ mru) ∧
  (tag ≠ [] → lowerStr tag ∈ ws.tags.map lowerStr)

/-- The acceptance predicate amended to what the code implements: the text
constraint applies to the whitespace-stripped text (a blank-only text
imposes no constraint). -/
def amendedAccepts (text mode tag : Str) (pinned mru : List Str)
    (ws : WInfo) : Prop :=
  specAccepts (strip text) mode tag pinned mru ws

/-! ## Scan coordinator (`MainWindow.start_scan` and the two slots) -/

/-- Coordinator state: the generation counter `_scan_gen`, the published
snapshot (`ws_model.rows`), and the scan errors actually surfaced to the
user. -/
structure Coord where
  scanGen : Nat
  snapshot : List WInfo
  errorsShown : List (Str × Nat)
deriving DecidableEq

/-- The events the coordinator reacts to: a scan request, and a worker's
terminal signal (arriving in any order, tagged with its generation). -/
inductive CoordEv : Type where
  | startScan
  | walkFinished (rows : List WInfo) (gen : Nat)
  | walkError (msg : Str) (gen : Nat)
deriving DecidableEq

/-- One coordinator transition: `start_scan` bumps the generation;
`on_scan_finished` publishes only on an exact generation match, else
returns; `on_scan_error` surfaces the error only on an exact match. -/
def coordStep (s : Coord) : CoordEv → Coord
  | .startScan => { s with scanGen := s.scanGen + 1 }
  | .walkFinished rows g =>
      if g = s.scanGen then { s with snapshot := rows } else s
  | .walkError m g =>
      if g = s.scanGen then { s with errorsShown := s.errorsShown ++ [(m, g)] }
      else s

/-- Startup state: `_scan_gen` defaults to 0, the model starts empty. -/
def coordInit : Coord := { scanGen := 0, snapshot := [], errorsShown := [] }

/-- The coordinator after an arbitrary interleaving of scan requests and
(possibly out-of-order) worker signals. -/
def coordRun (evs : List CoordEv) : Coord := evs.foldl coordStep coordInit

/-! ## Membership sets (`_update_mru`, `on_toggle_pin`) -/

/-- `MainWindow._update_mru`: drop the path, reinsert at the front, truncate
to `max_items`. -/
def updateMru (mru : List Str) (p : Str) (maxItems : Nat) : List Str :=
  (p :: mru.filter (fun x => x ≠ p)).take maxItems

/-- `MainWindow.on_toggle_pin`: remove the path if pinned, else insert it at
the front (deduplicating); no truncation. -/
def togglePin (pinned : List Str) (p : Str) : List Str :=
  if p ∈ pinned then pinned.filter (fun x => x ≠ p)
  else p :: pinned.filter (fun x => x ≠ p)

/-! ## Repair pass (`MainWindow.on_fix_workspaces`) -/

/-- The folders value backfilled by the repair pass: `[{"path": "."}]`. -/
def defFolders : JVal := .jarr [.jobj [(keyPath, .jstr [('.')])]]

/-- First if-block of the `on_fix_workspaces` loop: backfill a missing or
falsy `folders` list.  Returns the updated object and whether it changed. -/
def repairFolders (kvs : List (Str × JVal)) : List (Str × JVal) × Bool :=
  match jGet kvs keyFolders with
  | some v =>
    if jTruthy v then (kvs, false) else (jSet kvs keyFolders defFolders, true)
  | none => (jSet kvs keyFolders defFolders, true)

/-- Second if-block: backfill a missing or non-dict `settings` object. -/
def repairSettings (kvs : List (Str × JVal)) : List (Str × JVal) × Bool :=
  match jGet kvs keySettings with
  | some (.jobj _) => (kvs, false)
  | _ => (jSet kvs keySettings (.jobj []), true)

/-- Third if-block: the `meta` dict (fresh and flagged when absent or not a
dict). -/
def repairMeta (kvs : List (Str × JVal)) : List (Str × JVal) × Bool :=
  match jGet kvs keyMeta with
  | some (.jobj m) => (m, false)
  | _ => ([], true)

/-- Fourth if-block: backfill a missing `meta.description` with the entry's
identifier. -/
def repairDescField (wsName : Str) (m : List (Str × JVal)) :
    List (Str × JVal) × Bool :=
  if (jGet m keyDescription).isSome then (m, false)
  else (jSet m keyDescription (.jstr wsName), true)

/-- Fifth if-block: backfill a missing or non-list `meta.tags`. -/
def repairTagsField (m : List (Str × JVal)) : List (Str × JVal) × Bool :=
  match jGet m keyTags with
  | some (.jarr _) => (m, false)
  | _ => (jSet m keyTags (.jarr []), true)

/-- One file's repair (`on_fix_workspaces` loop body once the file is read
and parsed): `none` when the document is not a dict (the file is skipped and
not counted), else the repaired document and whether anything changed.  The
five stages run in source order; the `meta` value is written back into the
document exactly when any of the three meta-related stages changed it
(matching the in-place dict mutation of the source). -/
def repairDoc (wsName : Str) (d : JVal) : Option (JVal × Bool) :=
  match d with
  | .jobj kvs0 =>
    let r1 := repairFolders kvs0
    let r2 := repairSettings r1.1
    let rm := repairMeta r2.1
    let r3 := repairDescField wsName rm.1
    let r4 := repairTagsField r3.1
    let kvs3 := if rm.2 || r3.2 || r4.2 then jSet r2.1 keyMeta (.jobj r4.1)
                else r2.1
    some (.jobj kvs3, r1.2 || r2.2 || rm.2 || r3.2 || r4.2)
  | _ => none

/-- Does a document already satisfy every structural requirement the repair
pass checks?  (Truthy `folders`, dict `settings`, dict `meta` with a
`description` key and a list `tags`.) -/
def repairedB (d : JVal) : Bool :=
  match d with
  | .jobj kvs =>
    (match jGet kvs keyFolders with
     | some v => jTruthy v
     | none => false) &&
    (match jGet kvs keySettings with
     | some (.jobj _) => true
     | _ => false) &&
    (match jGet kvs keyMeta with
     | some (.jobj m) =>
       (jGet m keyDescription).isSome &&
       (match jGet m keyTags with
        | some (.jarr _) => true
        | _ => false)
     | _ => false)
  | _ => false

/-- A stored value the repair pass can never modify: a missing/unreadable
file, a non-dict document (skipped), or a document already satisfying every
structural requirement. -/
def stableVal : Option JVal → Bool
  | none => true
  | some d =>
    match d with
    | .jobj _ => repairedB d
    | _ => true

/-- The filesystem as the repair pass sees it: each path maps to the parse
of its current contents, `none` when the file is missing, unreadable or
unparsable.  A rewrite stores the new document (a `json.dumps`/`json.loads`
round trip is the identity on `JVal`). -/
abbrev Store := List (Str × Option JVal)

def storeGet (store : Store) (p : Str) : Option JVal :=
  match store with
  | [] => none
  | (q, v) :: rest => if q = p then v else storeGet rest p

def storeSet (store : Store) (p : Str) (v : JVal) : Store :=
  store.map (fun q => if q.1 = p then (p, some v) else q)

/-- `on_fix_workspaces`: iterate over the snapshot's `(name, path)` rows,
re-read each backing file, repair it, and rewrite it only when something
changed; unreadable/unparsable files and non-dict documents are skipped.
Returns the updated filesystem and the count of files modified (the number
the final message box reports). -/
def repairPass (rows : List (Str × Str)) (store : Store) : Store × Nat :=
  match rows with
  | [] => (store, 0)
  | (name, p) :: rest =>
    match storeGet store p with
    | none => repairPass rest store
    | some d =>
      match repairDoc name d with
      | none => repairPass rest store
      | some (d', ch) =>
        if ch then
          let r := repairPass rest (storeSet store p d')
          (r.1, r.2 + 1)
        else repairPass rest store

/-- The `meta` object of a document, when present and actually a dict
(`isinstance(meta, dict)`). -/
def metaOf (kvs : List (Str × JVal)) : Option (List (Str × JVal)) :=
  match jGet kvs keyMeta with
  | some (.jobj m) => some m
  | _ => none

/-! ## Concrete inputs used by witnesses and counterexamples -/

/-- A catalog entry with no whitespace anywhere in its fields. -/
def wX : WInfo := ⟨("x").data, ("/x").data, [], 0, []⟩

/-- A row used by the coordinator witness. -/
def w0 : WInfo := ⟨("a").data, ("/r/a").data, [], 0, []⟩

def pathA : Str := ("a").data

def pathB : Str := ("b").data

def rp0 : Str := ("/root").data

/-- A one-directory tree holding a single well-formed descriptor file. -/
def tree0 : FSTree :=
  .mk [⟨("a.code-workspace").data, some (.jobj [], 0)⟩] []

/-- A tree holding no descriptor files at all (one unrelated file). -/
def treeNoDesc : FSTree := .mk [⟨("readme.txt").data, none⟩] []

/-- A tree holding one file that parses to structurally invalid JSON (a
list, not an object). -/
def treeBadStruct : FSTree :=
  .mk [⟨("z.code-workspace").data, some (.jarr [], 5)⟩] []

/-- The entry the scan builds for the structurally invalid file above. -/
def rowZ : WInfo :=
  ⟨("z").data, joinPath rp0 (("z.code-workspace").data), [], 5, []⟩

/-- A well-formed two-directory tree with one descriptor file at the root
and one inside a subdirectory. -/
def tree3 : FSTree :=
  .mk [⟨("b.code-workspace").data, some (.jobj [], 1)⟩]
    [((("sub").data : Str),
      .mk [⟨("a.code-workspace").data,
            some (.jobj [(keyDescription, .jstr (("d").data))], 2)⟩] [])]

/-- The rows the walk of `tree3` accumulates, in walk order. -/
def rows3 : List WInfo :=
  [⟨("b").data, joinPath rp0 (("b.code-workspace").data), [], 1, []⟩,
   ⟨("a").data, joinPath (joinPath rp0 (("sub").data))
      (("a.code-workspace").data), ("d").data, 2, []⟩]

/-- A descriptor whose `meta` lacks `description` but which carries a legacy
top-level `description`, plus one tag. -/
def kvsEx : List (Str × JVal) :=
  [(keyMeta, .jobj [(keyTags, .jarr [.jstr (("go").data)])]),
   (keyDescription, .jstr (("legacy").data))]

/-- A workspace document already satisfying every structural requirement of
the repair pass. -/
def docGood : JVal :=
  .jobj [(keyFolders, defFolders), (keySettings, .jobj []),
         (keyMeta, .jobj [(keyDescription, .jstr (("b").data)),
                          (keyTags, .jarr [])])]

/-- A store with one malformed and one well-formed workspace file. -/
def storeEx : Store := [(pathA, some (.jobj [])), (pathB, some docGood)]

/-- The snapshot rows the repair pass iterates over for `storeEx`. -/
def rowsEx : List (Str × Str) := [((("a").data : Str), pathA),
                                  ((("b").data : Str), pathB)]

/-! ## Helper lemmas -/

theorem pyStr_jstr (s : Str) : pyStr (.jstr s) = s := rfl

theorem map_pyStr_jstr (ts : List Str) : (ts.map JVal.jstr).map pyStr = ts := by
  induction ts with
  | nil => rfl
  | cons a l ih => simp [pyStr_jstr, ih]

theorem map_pyStr_comp_jstr (ts : List Str) :
    List.map (pyStr ∘ JVal.jstr) ts = ts := by
  induction ts with
  | nil => rfl
  | cons a l ih => simp [Function.comp, pyStr_jstr, ih]

theorem metaOf_some {kvs : List (Str × JVal)} {m : List (Str × JVal)}
    (h : metaOf kvs = some m) : jGet kvs keyMeta = some (.jobj m) := by
  unfold metaOf at h
  rcases hg : jGet kvs keyMeta with _ | v
  · rw [hg] at h; cases h
  · rw [hg] at h; cases v <;> simp_all

theorem metaOf_none {kvs : List (Str × JVal)} (h : metaOf kvs = none) :
    ∀ m, jGet kvs keyMeta ≠ some (.jobj m) := by
  intro m hc
  unfold metaOf at h
  rw [hc] at h
  cases h

/-! ## C8: nonexistent root -/

/-- C8: for every root path that does not exist, the walk completes
immediately through the normal completion signal with an empty entry list
and the walk's generation id; no error is signalled. -/
theorem missing_root_completes_empty :
    ∀ (c : Option Nat) (rp : Str) (g : Nat),
      scanRun c rp none g = Signal.finished [] g := by
  intro c rp g
  rfl

theorem coordRun_concat (evs : List CoordEv) (e : CoordEv) :
    coordRun (evs ++ [e]) = coordStep (coordRun evs) e := by
  simp [coordRun, List.foldl_append]

/-! ## C1: generation discipline -/

/-- C1: each `start_scan` assigns a strictly larger generation; a completion
or error event carrying a generation below the coordinator's current
(highest-issued) one leaves the coordinator untouched, regardless of arrival
order; and the published snapshot can only change through a completion
carrying exactly the current generation. -/
theorem generation_discipline :
    (∀ evs, (coordRun (evs ++ [.startScan])).scanGen
        = (coordRun evs).scanGen + 1) ∧
    (∀ evs rows g, g < (coordRun evs).scanGen →
        coordRun (evs ++ [.walkFinished rows g]) = coordRun evs) ∧
    (∀ evs m g, g < (coordRun evs).scanGen →
        coordRun (evs ++ [.walkError m g]) = coordRun evs) ∧
    (∀ evs rows g,
        (coordRun (evs ++ [.walkFinished rows g])).snapshot
          ≠ (coordRun evs).snapshot →
        g = (coordRun evs).scanGen) := by
  refine ⟨?_, ?_, ?_, ?_⟩
  · intro evs
    rw [coordRun_concat]
    rfl
  · intro evs rows g h
    rw [coordRun_concat]
    show (if g = (coordRun evs).scanGen then _ else _) = _
    rw [if_neg (by omega)]
  · intro evs m g h
    rw [coordRun_concat]
    show (if g = (coordRun evs).scanGen then _ else _) = _
    rw [if_neg (by omega)]
  · intro evs rows g h
    by_contra hne
    apply h
    rw [coordRun_concat]
    simp only [coordStep]
    rw [if_neg hne]

/-- Witness for C1: after two scan requests the current generation is 2, and
a completion tagged with the superseded generation 1 is discarded without
changing any coordinator state. -/
theorem generation_discipline_witness :
    coordRun [.startScan, .startScan, .walkFinished [w0] 1]
      = coordRun [.startScan, .startScan] :=
  generation_discipline.2.1 [.startScan, .startScan] [w0] 1 (by decide)

/-! ## C5: description and tag resolution -/

/-- C5: the reader prefers a present, non-empty `meta.description`; when
that is absent or empty it falls back to the top-level `description`; when
neither yields a value the description is empty.  Tags come from `meta.tags`
exactly when that field is present and a list, and are empty otherwise.  (In
particular a descriptor missing `meta.description` but carrying a legacy
top-level `description` resolves to the legacy value.) -/
theorem descriptor_resolution :
    (∀ kvs m s, metaOf kvs = some m →
       jGet m keyDescription = some (.jstr s) → s ≠ [] →
       (readDesc (.jobj kvs)).1 = s) ∧
    (∀ kvs s', (metaOf kvs = none ∨
        ∃ m, metaOf kvs = some m ∧
          (jGet m keyDescription = none ∨
           jGet m keyDescription = some (.jstr []))) →
       jGet kvs keyDescription = some (.jstr s') →
       (readDesc (.jobj kvs)).1 = s') ∧
    (∀ kvs, (metaOf kvs = none ∨
        ∃ m, metaOf kvs = some m ∧
          (jGet m keyDescription = none ∨
           jGet m keyDescription = some (.jstr []))) →
       (jGet kvs keyDescription = none ∨
        jGet kvs keyDescription = some (.jstr [])) →
       (readDesc (.jobj kvs)).1 = []) ∧
    (∀ kvs m ts, metaOf kvs = some m →
       jGet m keyTags = some (.jarr (ts.map JVal.jstr)) →
       (readDesc (.jobj kvs)).2 = ts) ∧
    (∀ kvs, (metaOf kvs = none ∨
        ∃ m, metaOf kvs = some m ∧ ∀ xs, jGet m keyTags ≠ some (.jarr xs)) →
       (readDesc (.jobj kvs)).2 = []) := by
  refine ⟨?_, ?_, ?_, ?_, ?_⟩
  · intro kvs m s h1 h2 hne
    simp [readDesc, metaOf_some h1, h2, pyStr_jstr, hne]
  · intro kvs s' h1 h2
    rcases h1 with h1 | ⟨m, h1, hd⟩
    · rcases hg : jGet kvs keyMeta with _ | v
      · simp [readDesc, hg, h2, pyStr_jstr]
      · cases v <;> first
          | (simp [readDesc, hg, h2, pyStr_jstr]; done)
          | exact absurd hg (metaOf_none h1 _)
    · rcases hd with hd | hd <;>
        simp [readDesc, metaOf_some h1, hd, h2, pyStr_jstr]
  · intro kvs h1 h2
    rcases h1 with h1 | ⟨m, h1, hd⟩
    · rcases hg : jGet kvs keyMeta with _ | v
      · rcases h2 with h2 | h2 <;> simp [readDesc, hg, h2, pyStr_jstr]
      · cases v <;> first
          | (rcases h2 with h2 | h2 <;> simp [readDesc, hg, h2, pyStr_jstr];
             done)
          | exact absurd hg (metaOf_none h1 _)
    · rcases hd with hd | hd <;> rcases h2 with h2 | h2 <;>
        simp [readDesc, metaOf_some h1, hd, h2, pyStr_jstr]
  · intro kvs m ts h1 h2
    simp [readDesc, metaOf_some h1, h2, map_pyStr_jstr, map_pyStr_comp_jstr]
  · intro kvs h1
    rcases h1 with h1 | ⟨m, h1, ht⟩
    · rcases hg : jGet kvs keyMeta with _ | v
      · simp [readDesc, hg]
      · cases v <;> first
          | (simp [readDesc, hg]; done)
          | exact absurd hg (metaOf_none h1 _)
    · rcases hg : jGet m keyTags with _ | v
      · simp [readDesc, metaOf_some h1, hg]
      · cases v <;> first
          | (simp [readDesc, metaOf_some h1, hg]; done)
          | exact absurd hg (ht _)

/-- Witness for C5: on a concrete descriptor whose `meta` has tags but no
description and which carries a legacy top-level description, the reader
resolves the legacy description and the tag list. -/
theorem descriptor_resolution_witness :
    (readDesc (.jobj kvsEx)).1 = ("legacy").data ∧
    (readDesc (.jobj kvsEx)).2 = [("go").data] :=
  ⟨descriptor_resolution.2.1 kvsEx (("legacy").data)
      (Or.inr ⟨_, rfl, Or.inl rfl⟩) rfl,
   descriptor_resolution.2.2.2.1 kvsEx _ [("go").data] rfl rfl⟩

/-! ## C6: membership-set updates -/

/-- Counterexample for C6: toggling a pin on an already-pinned path removes
the path entirely, so the resulting sequence does not have the "inserted"
path at the front — the existing occurrence is deleted, not moved to the
front as the claim states for every update operation. -/
theorem togglePin_existing_removes :
    togglePin [pathA] pathA = [] ∧
    (togglePin [pathA] pathA).head? ≠ some pathA := by
  constructor
  · decide
  · decide

/-- C6 (amended): touch-recent puts the path at the front, deduplicates it,
keeps the other elements in their relative order and truncates to the given
maximum; toggle-pin on a path not currently pinned puts it at the front
deduplicated with the rest in order (with no length cap), while toggle-pin
on an already-pinned path removes every occurrence of it, preserving the
order of the rest. -/
theorem membership_update_amended :
    ∀ (mru pinned : List Str) (p : Str) (k : Nat),
      (updateMru mru p k).length ≤ k ∧
      (0 < k → (updateMru mru p k).head? = some p) ∧
      ((updateMru mru p k).drop 1).all (fun x => x ≠ p) = true ∧
      ((updateMru mru p k).filter (fun x => x ≠ p)).Sublist mru ∧
      (p ∉ pinned → togglePin pinned p = p :: pinned) ∧
      (p ∈ pinned → togglePin pinned p = pinned.filter (fun x => x ≠ p)) := by
  intro mru pinned p k
  refine ⟨?_, ?_, ?_, ?_, ?_, ?_⟩
  · simp [updateMru, List.length_take]
  · intro hk
    cases k with
    | zero => omega
    | succ j => rfl
  · cases k with
    | zero => simp [updateMru]
    | succ j =>
      rw [List.all_eq_true]
      intro x hx
      simp only [updateMru, List.take_succ_cons, List.drop_one,
        List.tail_cons] at hx
      have hx' : x ∈ mru.filter (fun x => x ≠ p) :=
        (List.take_sublist j _).mem hx
      have := (List.mem_filter.mp hx').2
      simpa using this
  · have h1 : ((updateMru mru p k).filter (fun x => x ≠ p)).Sublist
        ((p :: mru.filter (fun x => x ≠ p)).filter (fun x => x ≠ p)) :=
      List.Sublist.filter _ (List.take_sublist k _)
    have h2 : (p :: mru.filter (fun x => x ≠ p)).filter (fun x => x ≠ p)
        = mru.filter (fun x => x ≠ p) := by
      rw [List.filter_cons_of_neg (by simp)]
      rw [List.filter_filter]
      simp
    exact (h2 ▸ h1).trans (List.filter_sublist mru)
  · intro hp
    have : pinned.filter (fun x => x ≠ p) = pinned := by
      rw [List.filter_eq_self]
      intro a ha
      simp only [decide_eq_true_eq]
      rintro rfl
      exact hp ha
    simp [togglePin, hp, this]
    intro a ha
    rintro rfl
    exact hp ha
  · intro hp
    simp [togglePin, hp]

/-- Witness for C6 (amended): on concrete inputs, a touch moves the path to
the front and an unpin removes it. -/
theorem membership_update_amended_witness :
    (updateMru [pathB, pathA] pathA 2).head? = some pathA ∧
    togglePin [pathA] pathA = [pathA].filter (fun x => x ≠ pathA) :=
  ⟨(membership_update_amended [pathB, pathA] [pathA] pathA 2).2.1 (by decide),
   (membership_update_amended [pathB, pathA] [pathA] pathA 2).2.2.2.2.2
     (by decide)⟩

/-! ## C4: filter semantics -/

theorem lowerStr_eq_nil {s : Str} : lowerStr s = [] ↔ s = [] := by
  simp [lowerStr]

/-- Normal form of `filterAcceptsRow`: the conjunction of its three
short-circuited checks. -/
theorem filterAccepts_iff (st : ProxySt) (ws : WInfo) :
    filterAcceptsRow st ws = true ↔
      (st.pattern ≠ [] →
        (hasSub st.pattern (lowerStr ws.name) ||
         hasSub st.pattern (lowerStr ws.description) ||
         hasSub st.pattern (lowerStr ws.path)) = true) ∧
      (st.mode = modePinned → ws.path ∈ st.pinned) ∧
      (st.mode = modeRecent → ws.path ∈ st.mru) ∧
      (st.tag ≠ [] → lowerStr st.tag ∈ ws.tags.map lowerStr) := by
  unfold filterAcceptsRow
  split_ifs with h1 h2 h3 h4 <;>
    cases hn : hasSub st.pattern (lowerStr ws.name) <;>
    cases hd : hasSub st.pattern (lowerStr ws.description) <;>
    cases hp : hasSub st.pattern (lowerStr ws.path) <;>
    simp_all [List.contains, List.elem_iff]

/-- Counterexample for C4: with the query text a single blank (non-empty),
the filter accepts an entry containing no blank anywhere, because the setter
strips the text before matching; the claim's predicate rejects that entry. -/
theorem blank_text_filter_divergence :
    filterAcceptsRow (proxyFromQuery [' '] modeAll [] [] []) wX = true ∧
    ¬ specAccepts [' '] modeAll [] [] [] wX := by
  constructor
  · decide
  · unfold specAccepts occursCI
    decide

/-- C4 (amended): the filter accepts exactly the entries satisfying the
claimed conjunction, with the text constraint applying to the
whitespace-stripped query text (so a blank-only text imposes no
constraint); accepted entries are emitted in the snapshot's order. -/
theorem filter_semantics_amended :
    ∀ (text mode tag : Str) (pinned mru : List Str) (ws : WInfo),
      (filterAcceptsRow (proxyFromQuery text mode tag pinned mru) ws = true ↔
        amendedAccepts text mode tag pinned mru ws) ∧
      ∀ rows : List WInfo,
        (applyFilter (proxyFromQuery text mode tag pinned mru) rows).Sublist
          rows := by
  intro text mode tag pinned mru ws
  constructor
  · rw [filterAccepts_iff]
    unfold amendedAccepts specAccepts occursCI
    unfold proxyFromQuery setMruSet setPinnedSet setTagFilter setFilterMode
      setFilterText initProxy
    simp only []
    by_cases hm : mode = []
    · simp [hm, lowerStr_eq_nil, show modeAll ≠ modePinned by decide,
        show modeAll ≠ modeRecent by decide]
      tauto
    · simp [hm, lowerStr_eq_nil]
      tauto
  · intro rows
    exact List.filter_sublist rows

/-! ## Walk lemmas shared by C2, C9 and C10 -/

theorem walkDir_eq (c : Option Nat) (dp : Str) (files : List FileNode)
    (subs : List (Str × FSTree)) (st : WalkSt) :
    walkDir c dp (.mk files subs) st =
      (if checkCancel c (files.foldl (procFile dp) st).tick then
        WalkRes.cancelled { files.foldl (procFile dp) st with
          tick := (files.foldl (procFile dp) st).tick + 1 }
      else walkSubs c dp subs { files.foldl (procFile dp) st with
          tick := (files.foldl (procFile dp) st).tick + 1 }) := rfl

theorem walkSubs_nil (c : Option Nat) (dp : Str) (st : WalkSt) :
    walkSubs c dp [] st = .done st := rfl

theorem walkSubs_cons (c : Option Nat) (dp : Str) (n : Str) (t : FSTree)
    (rest : List (Str × FSTree)) (st : WalkSt) :
    walkSubs c dp ((n, t) :: rest) st =
      (if skipNames.contains n then walkSubs c dp rest st
       else match walkDir c (joinPath dp n) t st with
            | .done st' => walkSubs c dp rest st'
            | .cancelled st' => .cancelled st') := rfl

theorem scanRun_some (c : Option Nat) (rp : Str) (t : FSTree) (g : Nat) :
    scanRun c rp (some t) g =
      (match walkDir c rp t ⟨[], 0, 0⟩ with
       | .cancelled _ => Signal.finished [] g
       | .done st => Signal.finished (sortRows st.rows) g) := rfl

theorem procFile_skip (dp : Str) (st : WalkSt) (f : FileNode)
    (h : f.data = none) : procFile dp st f = st := by
  unfold procFile
  rw [h]
  split <;> rfl

theorem foldl_procFile_noMatch (dp : Str) (files : List FileNode) :
    (∀ f ∈ files, extStr.isSuffixOf f.name = false) →
    ∀ st, files.foldl (procFile dp) st = st := by
  induction files with
  | nil => intro _ st; rfl
  | cons f rest ih =>
    intro h st
    have hf := h f (by simp)
    simp only [List.foldl_cons]
    rw [show procFile dp st f = st by unfold procFile; rw [hf]; rfl]
    exact ih (fun g hg => h g (by simp [hg])) st

mutual
theorem walkDir_noDesc (t : FSTree) (dp : Str) (st : WalkSt)
    (h : noDescFilesB t = true) :
    ∃ n, walkDir none dp t st = .done ⟨st.rows, st.count, n⟩ := by
  match t with
  | .mk files subs =>
    unfold noDescFilesB at h
    rw [Bool.and_eq_true, List.all_eq_true] at h
    obtain ⟨hf, hs⟩ := h
    rw [walkDir_eq]
    rw [foldl_procFile_noMatch dp files
      (fun f hfm => by simpa using hf f hfm) st]
    rw [if_neg (by simp [checkCancel])]
    exact walkSubs_noDesc subs dp { st with tick := st.tick + 1 } hs

theorem walkSubs_noDesc (subs : List (Str × FSTree)) (dp : Str) (st : WalkSt)
    (h : noDescFilesSubsB subs = true) :
    ∃ n, walkSubs none dp subs st = .done ⟨st.rows, st.count, n⟩ := by
  match subs with
  | [] => exact ⟨st.tick, rfl⟩
  | (n, t) :: rest =>
    unfold noDescFilesSubsB at h
    rw [Bool.and_eq_true] at h
    obtain ⟨h1, h2⟩ := h
    rw [walkSubs_cons]
    by_cases hskip : skipNames.contains n
    · rw [if_pos hskip]
      exact walkSubs_noDesc rest dp st h2
    · rw [if_neg hskip]
      obtain ⟨m, hm⟩ := walkDir_noDesc t (joinPath dp n) st h1
      rw [hm]
      exact walkSubs_noDesc rest dp ⟨st.rows, st.count, m⟩ h2
end

theorem walkDir_cancel_zero (dp : Str) (t : FSTree) (st : WalkSt) :
    ∃ st', walkDir (some 0) dp t st = .cancelled st' := by
  match t with
  | .mk files subs =>
    rw [walkDir_eq]
    rw [if_pos (by simp [checkCancel])]
    exact ⟨_, rfl⟩

theorem scanRun_of_cancelled {c : Option Nat} {rp : Str} {t : FSTree}
    {st' : WalkSt} (g : Nat)
    (hw : walkDir c rp t ⟨[], 0, 0⟩ = .cancelled st') :
    scanRun c rp (some t) g = .finished [] g := by
  rw [scanRun_some, hw]

/-! ## C2: cancellation behaviour -/

/-- Counterexample for C2: a walk whose cancellation flag is set from the
start (observed at the first directory-boundary check) emits the very same
`finished` completion signal used by a successful walk, carrying an empty
list — the code has no distinct "cancelled" signal, contradicting the
claim that a cancelled walk signals "cancelled" rather than "completed". -/
theorem cancelled_walk_emits_finished :
    (∃ st, walkDir (some 0) rp0 tree0 ⟨[], 0, 0⟩ = WalkRes.cancelled st) ∧
    scanRun (some 0) rp0 (some tree0) 1 = Signal.finished [] 1 :=
  ⟨⟨_, rfl⟩, rfl⟩

/-- C2 (amended): a walk that observes its cancellation flag at a
directory-boundary check stops there and emits the completion signal with
an empty entry list — never its partially accumulated entries — and since
the coordinator bumps the generation when it requests cancellation, a
completion carrying a non-current generation leaves the coordinator's
snapshot untouched. -/
theorem cancelled_walk_amended :
    ∀ (c : Option Nat) (rp : Str) (t : FSTree) (g : Nat),
      (∃ st, walkDir c rp t ⟨[], 0, 0⟩ = WalkRes.cancelled st) →
      scanRun c rp (some t) g = Signal.finished [] g ∧
      ∀ s : Coord, g ≠ s.scanGen → coordStep s (.walkFinished [] g) = s := by
  intro c rp t g h
  obtain ⟨st, hw⟩ := h
  refine ⟨scanRun_of_cancelled g hw, ?_⟩
  intro s hne
  simp [coordStep, hne]

/-- Witness for C2 (amended): the concrete cancelled walk of `tree0` emits
`finished([], 5)`, and a coordinator already at generation 7 discards that
completion unchanged. -/
theorem cancelled_walk_amended_witness :
    scanRun (some 0) rp0 (some tree0) 5 = Signal.finished [] 5 ∧
    coordStep ⟨7, [], []⟩ (.walkFinished [] 5) = ⟨7, [], []⟩ :=
  ⟨(cancelled_walk_amended (some 0) rp0 tree0 5 ⟨_, rfl⟩).1,
   (cancelled_walk_amended (some 0) rp0 tree0 5 ⟨_, rfl⟩).2 ⟨7, [], []⟩
     (by decide)⟩

/-! ## C10: indistinguishable empty completions -/

/-- C10: a nonexistent root, a cancelled walk, and a tree containing no
descriptor files all emit the same completion signal `finished([], gen)`,
so the completion payload alone cannot distinguish them. -/
theorem empty_payload_indistinct :
    ∀ (g : Nat) (c : Option Nat) (rp : Str) (t t' : FSTree),
      noDescFilesB t = true →
      scanRun c rp none g = Signal.finished [] g ∧
      scanRun none rp (some t) g = Signal.finished [] g ∧
      scanRun (some 0) rp (some t') g = Signal.finished [] g := by
  intro g c rp t t' h
  refine ⟨rfl, ?_, ?_⟩
  · obtain ⟨n, hw⟩ := walkDir_noDesc t rp ⟨[], 0, 0⟩ h
    rw [scanRun_some, hw]
    simp [sortRows]
  · obtain ⟨st', hw⟩ := walkDir_cancel_zero rp t' ⟨[], 0, 0⟩
    exact scanRun_of_cancelled g hw

/-- Witness for C10: concrete instances of all three situations produce the
identical payload. -/
theorem empty_payload_indistinct_witness :
    scanRun (some 4) rp0 none 3 = Signal.finished [] 3 ∧
    scanRun none rp0 (some treeNoDesc) 3 = Signal.finished [] 3 ∧
    scanRun (some 0) rp0 (some tree0) 3 = Signal.finished [] 3 :=
  empty_payload_indistinct 3 (some 4) rp0 treeNoDesc tree0 rfl

/-! ## C9: per-file failures -/

theorem dropBad_eq (files : List FileNode) (subs : List (Str × FSTree)) :
    dropBad (.mk files subs)
      = .mk (files.filter (fun f => f.data.isSome)) (dropBadSubs subs) := rfl

theorem foldl_procFile_filter (dp : Str) (files : List FileNode) :
    ∀ st, (files.filter (fun f => f.data.isSome)).foldl (procFile dp) st
      = files.foldl (procFile dp) st := by
  induction files with
  | nil => intro st; rfl
  | cons f rest ih =>
    intro st
    rcases hf : f.data with _ | d
    · rw [List.filter_cons_of_neg (by simp [hf])]
      rw [List.foldl_cons, procFile_skip dp st f hf]
      exact ih st
    · rw [List.filter_cons_of_pos (by simp [hf])]
      rw [List.foldl_cons, List.foldl_cons]
      exact ih _

mutual
theorem walkDir_dropBad (t : FSTree) (c : Option Nat) (dp : Str)
    (st : WalkSt) : walkDir c dp (dropBad t) st = walkDir c dp t st := by
  match t with
  | .mk files subs =>
    rw [dropBad_eq, walkDir_eq, walkDir_eq, foldl_procFile_filter]
    by_cases hc : checkCancel c (files.foldl (procFile dp) st).tick
    · rw [if_pos hc, if_pos hc]
    · rw [if_neg hc, if_neg hc]
      exact walkSubs_dropBad subs c dp _

theorem walkSubs_dropBad (subs : List (Str × FSTree)) (c : Option Nat)
    (dp : Str) (st : WalkSt) :
    walkSubs c dp (dropBadSubs subs) st = walkSubs c dp subs st := by
  match subs with
  | [] => rfl
  | (n, t) :: rest =>
    rw [show dropBadSubs ((n, t) :: rest)
          = (n, dropBad t) :: dropBadSubs rest from rfl]
    rw [walkSubs_cons, walkSubs_cons]
    by_cases hskip : skipNames.contains n
    · rw [if_pos hskip, if_pos hskip]
      exact walkSubs_dropBad rest c dp st
    · rw [if_neg hskip, if_neg hskip]
      rw [walkDir_dropBad t c (joinPath dp n) st]
      rcases hw : walkDir c (joinPath dp n) t st with st' | st'
      · exact walkSubs_dropBad rest c dp st'
      · rfl
end

/-- Counterexample for C9: a file that parses to structurally invalid JSON
(a list, not an object) is not skipped — the completed scan publishes an
entry for it (with empty description and tags), contradicting the claim
that "missing or invalid structure" causes the file to contribute no
entry. -/
theorem invalid_structure_not_skipped :
    scanRun none rp0 (some treeBadStruct) 2 = Signal.finished [rowZ] 2 := by
  rw [scanRun_some]
  rw [show walkDir none rp0 treeBadStruct ⟨[], 0, 0⟩
        = WalkRes.done ⟨[rowZ], 1, 1⟩ from rfl]
  simp [sortRows]

/-- C9 (amended): a read, parse or stat failure on a single file causes
exactly that file to be skipped: the walk behaves identically — same rows,
same counters, same cancellation behaviour, same terminal signal — to the
walk of the tree with the failing files removed; no exception reaches the
caller and no failed file contributes an entry.  (A file that parses to
JSON of the wrong shape is not skipped; it yields an entry with empty
description and tags.) -/
theorem per_file_failure_skipped :
    ∀ (c : Option Nat) (rp : Str) (t : FSTree) (g : Nat),
      scanRun c rp (some t) g = scanRun c rp (some (dropBad t)) g := by
  intro c rp t g
  rw [scanRun_some, scanRun_some, walkDir_dropBad]

/-! ## C3: order and path lemmas -/

theorem strLeB_total (a : Str) : ∀ b, (strLeB a b || strLeB b a) = true := by
  induction a with
  | nil => intro b; cases b <;> simp [strLeB]
  | cons x xs ih =>
    intro b
    cases b with
    | nil => simp [strLeB]
    | cons y ys =>
      by_cases hxy : x = y
      · subst hxy
        simpa [strLeB] using ih ys
      · rcases lt_or_gt_of_ne hxy with h | h
        · simp [strLeB, hxy, Ne.symm hxy, h]
        · simp [strLeB, hxy, Ne.symm hxy, h]

theorem strLeB_trans : ∀ {a b c : Str}, strLeB a b = true →
    strLeB b c = true → strLeB a c = true := by
  intro a
  induction a with
  | nil => intro b c _ _; cases c <;> simp [strLeB]
  | cons x xs ih =>
    intro b c h1 h2
    cases b with
    | nil => simp [strLeB] at h1
    | cons y ys =>
      cases c with
      | nil => simp [strLeB] at h2
      | cons z zs =>
        simp only [strLeB] at h1 h2 ⊢
        by_cases hxy : x = y <;> by_cases hyz : y = z
        · subst hxy; subst hyz
          simp only [if_pos rfl] at h1 h2 ⊢
          exact ih h1 h2
        · subst hxy
          simp_all
        · subst hyz
          simp_all
        · rw [if_neg hxy] at h1
          rw [if_neg hyz] at h2
          have hx : x < y := by simpa using h1
          have hy : y < z := by simpa using h2
          have hxz : x < z := lt_trans hx hy
          rw [if_neg (by rintro rfl; exact absurd hy (not_lt_of_gt hx))]
          simpa using hxz

theorem strLeB_antisymm : ∀ {a b : Str}, strLeB a b = true →
    strLeB b a = true → a = b := by
  intro a
  induction a with
  | nil => intro b h1 h2; cases b with
    | nil => rfl
    | cons y ys => simp [strLeB] at h2
  | cons x xs ih =>
    intro b h1 h2
    cases b with
    | nil => simp [strLeB] at h1
    | cons y ys =>
      simp only [strLeB] at h1 h2
      by_cases hxy : x = y
      · subst hxy
        simp only [if_pos rfl] at h1 h2
        rw [ih h1 h2]
      · rw [if_neg hxy] at h1
        rw [if_neg (Ne.symm hxy)] at h2
        have hx : x < y := by simpa using h1
        have hy : y < x := by simpa using h2
        exact absurd hy (not_lt_of_gt hx)

theorem strLtB_eq (a : Str) : ∀ b, strLtB a b
    = (strLeB a b && !(decide (a = b))) := by
  induction a with
  | nil => intro b; cases b <;> simp [strLtB, strLeB]
  | cons x xs ih =>
    intro b
    cases b with
    | nil => simp [strLtB, strLeB]
    | cons y ys =>
      by_cases hxy : x = y
      · subst hxy
        simp [strLtB, strLeB, ih ys]
      · simp [strLtB, strLeB, hxy]

theorem rowLE_total (a b : WInfo) : (rowLE a b || rowLE b a) = true := by
  unfold rowLE
  by_cases h : lowerStr a.name = lowerStr b.name
  · rw [if_pos h, if_pos h.symm]
    exact strLeB_total _ _
  · rw [if_neg h, if_neg (Ne.symm h)]
    rw [strLtB_eq, strLtB_eq]
    simp [h, Ne.symm h]
    have ht := strLeB_total (lowerStr a.name) (lowerStr b.name)
    rw [Bool.or_eq_true] at ht
    rcases ht with h' | h'
    · exact Or.inl h'
    · exact Or.inr h'

theorem rowLE_trans (a b c : WInfo) (h1 : rowLE a b = true)
    (h2 : rowLE b c = true) : rowLE a c = true := by
  unfold rowLE at h1 h2 ⊢
  by_cases hab : lowerStr a.name = lowerStr b.name <;>
    by_cases hbc : lowerStr b.name = lowerStr c.name
  · rw [if_pos hab] at h1
    rw [if_pos hbc] at h2
    rw [if_pos (hab.trans hbc)]
    exact strLeB_trans h1 h2
  · rw [if_neg hbc] at h2
    rw [if_neg (by rw [hab]; exact hbc)]
    rw [hab]
    exact h2
  · rw [if_neg hab] at h1
    rw [if_neg (by rw [← hbc]; exact hab)]
    rw [← hbc]
    exact h1
  · rw [if_neg hab] at h1
    rw [if_neg hbc] at h2
    rw [strLtB_eq] at h1 h2
    rw [Bool.and_eq_true] at h1 h2
    have hle1 : strLeB (lowerStr a.name) (lowerStr b.name) = true := h1.1
    have hle2 : strLeB (lowerStr b.name) (lowerStr c.name) = true := h2.1
    have hac : lowerStr a.name ≠ lowerStr c.name := by
      rintro hEq
      rw [hEq] at hle1
      exact hbc (strLeB_antisymm hle2 hle1)
    rw [if_neg hac, strLtB_eq]
    simp [hac, strLeB_trans hle1 hle2]

theorem slashFree_not_mem {c : Str} (h : slashFree c = true) : '/' ∉ c := by
  simp only [slashFree, List.contains, Bool.not_eq_true'] at h
  intro hm
  rw [(List.elem_iff).mpr hm] at h
  cases h

theorem slashFree_tail {x : Char} {xs : Str} (h : slashFree (x :: xs) = true) :
    slashFree xs = true := by
  simp only [slashFree, Bool.not_eq_true'] at h ⊢
  rw [List.contains_cons] at h
  simp only [Bool.or_eq_false_iff] at h
  exact h.2

theorem flatC_cons (n : Str) (cs : List Str) :
    flatC (n :: cs) = '/' :: (n ++ flatC cs) := by
  simp [flatC]

theorem joinPath_flat (dp n : Str) : joinPath dp n = dp ++ flatC [n] := by
  simp [joinPath, flatC]

/-- Head shape of a component-list path: empty or starting with a slash. -/
theorem flatC_headOk (cs : List Str) :
    flatC cs = [] ∨ ∃ s, flatC cs = '/' :: s := by
  cases cs with
  | nil => exact Or.inl rfl
  | cons n rest => exact Or.inr ⟨_, flatC_cons n rest⟩

/-- Unique first-component split: two slash-free components followed by
slash-headed (or empty) remainders coincide only componentwise. -/
theorem compSplit : ∀ (c1 : Str) {c2 r1 r2 : Str},
    slashFree c1 = true → slashFree c2 = true →
    (r1 = [] ∨ ∃ s, r1 = '/' :: s) → (r2 = [] ∨ ∃ s, r2 = '/' :: s) →
    c1 ++ r1 = c2 ++ r2 → c1 = c2 ∧ r1 = r2 := by
  intro c1
  induction c1 with
  | nil =>
    intro c2 r1 r2 _ hsf2 hr1 hr2 heq
    cases c2 with
    | nil => exact ⟨rfl, heq⟩
    | cons b bs =>
      exfalso
      rcases hr1 with h | ⟨s, h⟩
      · rw [h] at heq
        exact (List.cons_ne_nil b (bs ++ r2)) heq.symm
      · rw [h] at heq
        have hb : b = '/' := by
          have := congrArg (fun l => l.head?) heq
          simpa using this.symm
        exact slashFree_not_mem hsf2 (by simp [hb])
  | cons a as ih =>
    intro c2 r1 r2 hsf1 hsf2 hr1 hr2 heq
    cases c2 with
    | nil =>
      exfalso
      rcases hr2 with h | ⟨s, h⟩
      · rw [h] at heq
        simp at heq
      · rw [h] at heq
        have ha : a = '/' := by
          have := congrArg (fun l => l.head?) heq
          simpa using this
        exact slashFree_not_mem hsf1 (by simp [ha])
    | cons b bs =>
      simp only [List.cons_append, List.cons.injEq] at heq
      obtain ⟨hab, htl⟩ := heq
      obtain ⟨h1, h2⟩ := ih (slashFree_tail hsf1) (slashFree_tail hsf2)
        hr1 hr2 htl
      exact ⟨by rw [hab, h1], h2⟩

/-- Component-list paths decompose uniquely: `flatC` is injective on lists
of slash-free components. -/
theorem flatC_inj : ∀ (cs1 : List Str) {cs2 : List Str},
    (∀ c ∈ cs1, slashFree c = true) → (∀ c ∈ cs2, slashFree c = true) →
    flatC cs1 = flatC cs2 → cs1 = cs2 := by
  intro cs1
  induction cs1 with
  | nil =>
    intro cs2 _ _ heq
    cases cs2 with
    | nil => rfl
    | cons b bs =>
      rw [flatC_cons] at heq
      exact absurd heq.symm (List.cons_ne_nil _ _)
  | cons a as ih =>
    intro cs2 h1 h2 heq
    cases cs2 with
    | nil =>
      rw [flatC_cons] at heq
      exact absurd heq (List.cons_ne_nil _ _)
    | cons b bs =>
      rw [flatC_cons, flatC_cons] at heq
      have htl : a ++ flatC as = b ++ flatC bs := by
        simpa using heq
      obtain ⟨hab, hrest⟩ := compSplit a (h1 a (by simp)) (h2 b (by simp))
        (flatC_headOk as) (flatC_headOk bs) htl
      rw [hab, ih (fun c hc => h1 c (by simp [hc]))
        (fun c hc => h2 c (by simp [hc])) hrest]

theorem entryOf_path {dp : Str} {f : FileNode} {r : WInfo}
    (h : entryOf dp f = some r) : r.path = joinPath dp f.name := by
  unfold entryOf at h
  by_cases hx : extStr.isSuffixOf f.name
  · rw [if_pos hx] at h
    rcases hd : f.data with _ | d
    · rw [hd] at h; cases h
    · rw [hd] at h
      cases h
      rfl
  · rw [if_neg hx] at h
    cases h

theorem procFile_rows (dp : Str) (st : WalkSt) (f : FileNode) :
    (procFile dp st f).rows = st.rows ++ (entryOf dp f).toList := by
  unfold procFile entryOf
  by_cases hx : extStr.isSuffixOf f.name
  · rw [if_pos hx, if_pos hx]
    rcases hd : f.data with _ | d
    · simp
    · simp
  · rw [if_neg hx, if_neg hx]
    simp

theorem foldl_procFile_rows (dp : Str) (files : List FileNode) :
    ∀ st, (files.foldl (procFile dp) st).rows
      = st.rows ++ files.filterMap (entryOf dp) := by
  induction files with
  | nil => intro st; simp
  | cons f rest ih =>
    intro st
    rw [List.foldl_cons, ih, procFile_rows]
    rcases he : entryOf dp f with _ | r
    · simp [List.filterMap_cons, he]
    · simp [List.filterMap_cons, he]

theorem rowsOfTree_eq (dp : Str) (files : List FileNode)
    (subs : List (Str × FSTree)) :
    rowsOfTree dp (.mk files subs)
      = files.filterMap (entryOf dp) ++ rowsOfSubs dp subs := rfl

theorem rowsOfSubs_nil (dp : Str) : rowsOfSubs dp [] = [] := rfl

theorem rowsOfSubs_cons (dp n : Str) (t : FSTree)
    (rest : List (Str × FSTree)) :
    rowsOfSubs dp ((n, t) :: rest)
      = (if skipNames.contains n then rowsOfSubs dp rest
         else rowsOfTree (joinPath dp n) t ++ rowsOfSubs dp rest) := rfl

mutual
theorem walkDir_done_rows (t : FSTree) (c : Option Nat) (dp : Str)
    (st st' : WalkSt) (h : walkDir c dp t st = .done st') :
    st'.rows = st.rows ++ rowsOfTree dp t := by
  match t with
  | .mk files subs =>
    rw [walkDir_eq] at h
    by_cases hc : checkCancel c (files.foldl (procFile dp) st).tick
    · rw [if_pos hc] at h
      cases h
    · rw [if_neg hc] at h
      have := walkSubs_done_rows subs c dp _ st' h
      rw [rowsOfTree_eq]
      rw [this]
      show (files.foldl (procFile dp) st).rows ++ _ = _
      rw [foldl_procFile_rows]
      rw [List.append_assoc]

theorem walkSubs_done_rows (subs : List (Str × FSTree)) (c : Option Nat)
    (dp : Str) (st st' : WalkSt) (h : walkSubs c dp subs st = .done st') :
    st'.rows = st.rows ++ rowsOfSubs dp subs := by
  match subs with
  | [] =>
    rw [walkSubs_nil] at h
    cases h
    simp [rowsOfSubs_nil]
  | (n, t) :: rest =>
    rw [walkSubs_cons] at h
    rw [rowsOfSubs_cons]
    by_cases hskip : skipNames.contains n
    · rw [if_pos hskip] at h
      rw [if_pos hskip]
      exact walkSubs_done_rows rest c dp st st' h
    · rw [if_neg hskip] at h
      rw [if_neg hskip]
      rcases hw : walkDir c (joinPath dp n) t st with st1 | st1 <;>
        rw [hw] at h
      · have h1 := walkDir_done_rows t c (joinPath dp n) st st1 hw
        have h2 := walkSubs_done_rows rest c dp st1 st' h
        rw [h2, h1, List.append_assoc]
      · cases h
end

theorem treeWFb_eq (files : List FileNode) (subs : List (Str × FSTree)) :
    treeWFb (.mk files subs)
      = ((files.map FileNode.name).Nodup &&
         (files.map FileNode.name).all slashFree &&
         (subs.map Prod.fst).Nodup &&
         (subs.map Prod.fst).all slashFree &&
         subsWFb subs) := rfl

theorem subsWFb_cons (n : Str) (t : FSTree) (rest : List (Str × FSTree)) :
    subsWFb ((n, t) :: rest) = (treeWFb t && subsWFb rest) := rfl

theorem goodComps_lift {dp n : Str} {r : WInfo} {cs : List Str}
    (hsfn : slashFree n = true) (h : goodComps (joinPath dp n) r cs) :
    goodComps dp r (n :: cs) := by
  obtain ⟨hne, hsf, hpath⟩ := h
  refine ⟨List.cons_ne_nil n cs, ?_, ?_⟩
  · intro c hc
    rcases List.mem_cons.mp hc with rfl | hc
    · exact hsfn
    · exact hsf c hc
  · rw [hpath, flatC_cons, joinPath]
    simp

mutual
theorem rowsOfTree_shape (t : FSTree) (dp : Str) (h : treeWFb t = true) :
    ∀ r ∈ rowsOfTree dp t, ∃ cs, goodComps dp r cs := by
  match t with
  | .mk files subs =>
    rw [treeWFb_eq] at h
    simp only [Bool.and_eq_true] at h
    obtain ⟨⟨⟨⟨h1, h2⟩, h3⟩, h4⟩, h5⟩ := h
    intro r hr
    rw [rowsOfTree_eq, List.mem_append] at hr
    rcases hr with hr | hr
    · obtain ⟨f, hf, he⟩ := List.mem_filterMap.mp hr
      refine ⟨[f.name], ?_, ?_, ?_⟩
      · exact List.cons_ne_nil _ _
      · intro c hc
        rcases List.mem_cons.mp hc with rfl | hc
        · rw [List.all_eq_true] at h2
          exact h2 f.name (List.mem_map_of_mem FileNode.name hf)
        · cases hc
      · rw [entryOf_path he, joinPath_flat]
    · obtain ⟨n, cs, _, hsfn, hgood⟩ := rowsOfSubs_shape subs dp h4 h5 r hr
      exact ⟨n :: cs, goodComps_lift hsfn hgood⟩

theorem rowsOfSubs_shape (subs : List (Str × FSTree)) (dp : Str)
    (hsf : (subs.map Prod.fst).all slashFree = true)
    (hwf : subsWFb subs = true) :
    ∀ r ∈ rowsOfSubs dp subs,
      ∃ n cs, n ∈ subs.map Prod.fst ∧ slashFree n = true ∧
        goodComps (joinPath dp n) r cs := by
  match subs with
  | [] =>
    intro r hr
    rw [rowsOfSubs_nil] at hr
    cases hr
  | (n, t) :: rest =>
    rw [List.map_cons, List.all_cons, Bool.and_eq_true] at hsf
    obtain ⟨hsfn, hsfrest⟩ := hsf
    rw [subsWFb_cons, Bool.and_eq_true] at hwf
    obtain ⟨hwt, hwrest⟩ := hwf
    intro r hr
    rw [rowsOfSubs_cons] at hr
    by_cases hskip : skipNames.contains n
    · rw [if_pos hskip] at hr
      obtain ⟨n', cs, hmem, hs, hg⟩ :=
        rowsOfSubs_shape rest dp hsfrest hwrest r hr
      exact ⟨n', cs, by simp [hmem], hs, hg⟩
    · rw [if_neg hskip] at hr
      rcases List.mem_append.mp hr with hr | hr
      · obtain ⟨cs, hg⟩ := rowsOfTree_shape t (joinPath dp n) hwt r hr
        exact ⟨n, cs, by simp, hsfn, hg⟩
      · obtain ⟨n', cs, hmem, hs, hg⟩ :=
          rowsOfSubs_shape rest dp hsfrest hwrest r hr
        exact ⟨n', cs, by simp [hmem], hs, hg⟩
end

theorem joinPath_inj {dp a b : Str} (h : joinPath dp a = joinPath dp b) :
    a = b := by
  unfold joinPath at h
  have := List.append_cancel_left h
  simpa using this

theorem filterMap_entryOf_paths_nodup (dp : Str) (files : List FileNode)
    (hnd : (files.map FileNode.name).Nodup) :
    ((files.filterMap (entryOf dp)).map WInfo.path).Nodup := by
  induction files with
  | nil => simp
  | cons f rest ih =>
    rw [List.map_cons, List.nodup_cons] at hnd
    obtain ⟨hout, hnd⟩ := hnd
    rw [List.filterMap_cons]
    rcases he : entryOf dp f with _ | r
    · exact ih hnd
    · rw [List.map_cons, List.nodup_cons]
      refine ⟨?_, ih hnd⟩
      intro hmem
      obtain ⟨r2, hr2, hpe⟩ := List.mem_map.mp hmem
      obtain ⟨g, hg, hge⟩ := List.mem_filterMap.mp hr2
      have : g.name = f.name := by
        have h1 := entryOf_path he
        have h2 := entryOf_path hge
        exact joinPath_inj (by rw [← h2, ← h1, hpe])
      exact hout (this ▸ List.mem_map_of_mem FileNode.name hg)

mutual
theorem rowsOfTree_nodup (t : FSTree) (dp : Str) (h : treeWFb t = true) :
    ((rowsOfTree dp t).map WInfo.path).Nodup := by
  match t with
  | .mk files subs =>
    have hsh := rowsOfSubs_shape subs dp
    rw [treeWFb_eq] at h
    simp only [Bool.and_eq_true] at h
    obtain ⟨⟨⟨⟨h1, h2⟩, h3⟩, h4⟩, h5⟩ := h
    rw [rowsOfTree_eq, List.map_append, List.nodup_append]
    refine ⟨filterMap_entryOf_paths_nodup dp files (of_decide_eq_true h1),
      rowsOfSubs_nodup subs dp (of_decide_eq_true h3) h4 h5, ?_⟩
    intro p hp1 hp2
    obtain ⟨r1, hr1, hpe1⟩ := List.mem_map.mp hp1
    obtain ⟨r2, hr2, hpe2⟩ := List.mem_map.mp hp2
    obtain ⟨f, hf, he⟩ := List.mem_filterMap.mp hr1
    obtain ⟨n, cs, _, hsfn, hg⟩ := hsh h4 h5 r2 hr2
    have hgl := goodComps_lift hsfn hg
    have hsff : slashFree f.name = true := by
      rw [List.all_eq_true] at h2
      exact h2 f.name (List.mem_map_of_mem FileNode.name hf)
    have hp1' : p = dp ++ flatC [f.name] := by
      rw [← hpe1, entryOf_path he, joinPath_flat]
    have hp2' : p = dp ++ flatC (n :: cs) := by
      rw [← hpe2, hgl.2.2]
    have hflat : flatC [f.name] = flatC (n :: cs) :=
      List.append_cancel_left (by rw [← hp1', ← hp2'])
    have := flatC_inj [f.name]
      (by intro c hc; rcases List.mem_cons.mp hc with rfl | hc
          · exact hsff
          · cases hc)
      hgl.2.1 hflat
    have hcs : cs = [] := by
      injection this with _ h'
      exact h'.symm
    exact hg.1 hcs

theorem rowsOfSubs_nodup (subs : List (Str × FSTree)) (dp : Str)
    (hnd : (subs.map Prod.fst).Nodup)
    (hsf : (subs.map Prod.fst).all slashFree = true)
    (hwf : subsWFb subs = true) :
    ((rowsOfSubs dp subs).map WInfo.path).Nodup := by
  match subs with
  | [] => simp [rowsOfSubs_nil]
  | (n, t) :: rest =>
    rw [List.map_cons, List.nodup_cons] at hnd
    obtain ⟨hnout, hndrest⟩ := hnd
    rw [List.map_cons, List.all_cons, Bool.and_eq_true] at hsf
    obtain ⟨hsfn, hsfrest⟩ := hsf
    rw [subsWFb_cons, Bool.and_eq_true] at hwf
    obtain ⟨hwt, hwrest⟩ := hwf
    rw [rowsOfSubs_cons]
    by_cases hskip : skipNames.contains n
    · rw [if_pos hskip]
      exact rowsOfSubs_nodup rest dp hndrest hsfrest hwrest
    · rw [if_neg hskip]
      rw [List.map_append, List.nodup_append]
      refine ⟨rowsOfTree_nodup t (joinPath dp n) hwt,
        rowsOfSubs_nodup rest dp hndrest hsfrest hwrest, ?_⟩
      intro p hp1 hp2
      obtain ⟨r1, hr1, hpe1⟩ := List.mem_map.mp hp1
      obtain ⟨r2, hr2, hpe2⟩ := List.mem_map.mp hp2
      obtain ⟨cs1, hg1⟩ := rowsOfTree_shape t (joinPath dp n) hwt r1 hr1
      obtain ⟨n', cs2, hmem, hsfn', hg2⟩ :=
        rowsOfSubs_shape rest dp hsfrest hwrest r2 hr2
      have hgl1 := goodComps_lift hsfn hg1
      have hgl2 := goodComps_lift hsfn' hg2
      have hflat : flatC (n :: cs1) = flatC (n' :: cs2) :=
        List.append_cancel_left
          (by rw [← hgl1.2.2, ← hgl2.2.2, hpe1, hpe2])
      have := flatC_inj (n :: cs1) hgl1.2.1 hgl2.2.1 hflat
      have hnn' : n = n' := by injection this
      exact hnout (hnn' ▸ hmem)
end

/-- C3: every published result of a scan — the sorted rows of a completed
walk, or the empty payload of a cancelled one — is sorted ascending by the
pair (identifier lowercased, path lowercased) and contains no two entries
with the same path, provided the walked tree is well formed in the way a
real filesystem guarantees (sibling names distinct and slash-free). -/
theorem snapshot_sorted_nodup :
    ∀ (c : Option Nat) (rp : Str) (t : FSTree) (g : Nat)
      (rows : List WInfo) (g' : Nat),
      treeWFb t = true →
      scanRun c rp (some t) g = Signal.finished rows g' →
      List.Pairwise (fun a b => rowLE a b = true) rows ∧
      (rows.map WInfo.path).Nodup := by
  intro c rp t g rows g' hwf hs
  rw [scanRun_some] at hs
  rcases hw : walkDir c rp t ⟨[], 0, 0⟩ with st | st <;> rw [hw] at hs
  · injection hs with h1 h2
    subst h1
    constructor
    · exact List.sorted_mergeSort rowLE_trans rowLE_total st.rows
    · have hperm := List.mergeSort_perm st.rows rowLE
      unfold sortRows
      rw [List.Perm.nodup_iff (hperm.map WInfo.path)]
      have hrows := walkDir_done_rows t c rp ⟨[], 0, 0⟩ st hw
      rw [hrows]
      simpa using rowsOfTree_nodup t rp hwf
  · injection hs with h1 h2
    subst h1
    simp

/-- Witness for C3: the concrete two-directory tree `tree3` is well formed,
its scan completes with the sorted rows, and those are pairwise ordered
with distinct paths. -/
theorem snapshot_sorted_nodup_witness :
    List.Pairwise (fun a b => rowLE a b = true) (sortRows rows3) ∧
    ((sortRows rows3).map WInfo.path).Nodup :=
  snapshot_sorted_nodup none rp0 tree3 1 (sortRows rows3) 1 (by decide) rfl

/-! ## C7: repair pass lemmas -/

theorem jGet_append (l1 l2 : List (Str × JVal)) (k : Str) :
    jGet (l1 ++ l2) k
      = (match jGet l1 k with
         | some v => some v
         | none => jGet l2 k) := by
  induction l1 with
  | nil => simp [jGet]
  | cons q rest ih =>
    rcases q with ⟨k', v'⟩
    by_cases h : k' = k
    · simp [jGet, h]
    · simp only [List.cons_append, jGet, if_neg h]
      exact ih

theorem jGet_map_replace (kvs : List (Str × JVal)) (k : Str) (v : JVal) :
    jGet (kvs.map (fun q => if q.1 = k then (k, v) else q)) k
      = (jGet kvs k).map (fun _ => v) := by
  induction kvs with
  | nil => rfl
  | cons q rest ih =>
    rcases q with ⟨k', v'⟩
    rw [List.map_cons]
    show jGet ((if k' = k then (k, v) else (k', v')) :: _) k = _
    by_cases h : k' = k
    · rw [if_pos h]
      show (if k = k then some v else _) = _
      rw [if_pos rfl]
      show _ = (if k' = k then some v' else jGet rest k).map (fun _ => v)
      rw [if_pos h]
      rfl
    · rw [if_neg h]
      show (if k' = k then some v' else
        jGet (rest.map (fun q => if q.1 = k then (k, v) else q)) k) = _
      rw [if_neg h, ih]
      show _ = (if k' = k then some v' else jGet rest k).map (fun _ => v)
      rw [if_neg h]

theorem jGet_map_replace_ne (kvs : List (Str × JVal)) {k k' : Str}
    (v : JVal) (h : k ≠ k') :
    jGet (kvs.map (fun q => if q.1 = k then (k, v) else q)) k'
      = jGet kvs k' := by
  induction kvs with
  | nil => rfl
  | cons q rest ih =>
    rcases q with ⟨a, b⟩
    rw [List.map_cons]
    show jGet ((if a = k then (k, v) else (a, b)) :: _) k' = _
    by_cases ha : a = k
    · rw [if_pos ha]
      show (if k = k' then some v else _) = _
      rw [if_neg h, ih]
      show _ = (if a = k' then some b else jGet rest k')
      rw [if_neg (by rw [ha]; exact Ne.symm (Ne.symm h))]
    · rw [if_neg ha]
      show (if a = k' then some b else _) = _
      by_cases hak : a = k'
      · rw [if_pos hak]
        show _ = (if a = k' then some b else jGet rest k')
        rw [if_pos hak]
      · rw [if_neg hak, ih]
        show _ = (if a = k' then some b else jGet rest k')
        rw [if_neg hak]

theorem jGet_jSet_self (kvs : List (Str × JVal)) (k : Str) (v : JVal) :
    jGet (jSet kvs k v) k = some v := by
  unfold jSet
  by_cases h : (jGet kvs k).isSome
  · rw [if_pos h, jGet_map_replace]
    rcases hg : jGet kvs k with _ | w
    · rw [hg] at h; cases h
    · rfl
  · rw [if_neg h, jGet_append]
    rcases hg : jGet kvs k with _ | w
    · simp [jGet]
    · rw [hg] at h; simp at h

theorem jGet_jSet_ne (kvs : List (Str × JVal)) {k k' : Str} (v : JVal)
    (h : k ≠ k') : jGet (jSet kvs k v) k' = jGet kvs k' := by
  unfold jSet
  by_cases hs : (jGet kvs k).isSome
  · rw [if_pos hs, jGet_map_replace_ne kvs v h]
  · rw [if_neg hs, jGet_append]
    rcases hg : jGet kvs k' with _ | w
    · simp [jGet, h]
    · simp

theorem keyFolders_ne_keySettings : keyFolders ≠ keySettings := by decide

theorem keyMeta_ne_keyFolders : keyMeta ≠ keyFolders := by decide

theorem keyMeta_ne_keySettings : keyMeta ≠ keySettings := by decide

theorem keySettings_ne_keyFolders : keySettings ≠ keyFolders := by decide

theorem keyTags_ne_keyDescription : keyTags ≠ keyDescription := by decide

/-! Stage specifications. -/

theorem repairFolders_good (kvs : List (Str × JVal)) :
    ∃ v, jGet (repairFolders kvs).1 keyFolders = some v ∧ jTruthy v = true := by
  rcases hg : jGet kvs keyFolders with _ | v
  · simp only [repairFolders, hg]
    exact ⟨defFolders, jGet_jSet_self kvs keyFolders defFolders, rfl⟩
  · by_cases ht : jTruthy v
    · simp only [repairFolders, hg, if_pos ht]
      exact ⟨v, rfl, ht⟩
    · simp only [repairFolders, hg, if_neg ht]
      exact ⟨defFolders, jGet_jSet_self kvs keyFolders defFolders, rfl⟩

theorem repairFolders_preserve (kvs : List (Str × JVal)) {k : Str}
    (h : keyFolders ≠ k) :
    jGet (repairFolders kvs).1 k = jGet kvs k := by
  rcases hg : jGet kvs keyFolders with _ | v
  · simp only [repairFolders, hg]
    exact jGet_jSet_ne kvs defFolders h
  · by_cases ht : jTruthy v
    · simp only [repairFolders, hg, if_pos ht]
    · simp only [repairFolders, hg, if_neg ht]
      exact jGet_jSet_ne kvs defFolders h

theorem repairFolders_unchanged (kvs : List (Str × JVal))
    (h : (repairFolders kvs).2 = false) : (repairFolders kvs).1 = kvs := by
  rcases hg : jGet kvs keyFolders with _ | v
  · simp only [repairFolders, hg] at h
    cases h
  · by_cases ht : jTruthy v
    · simp only [repairFolders, hg, if_pos ht]
    · simp only [repairFolders, hg, if_neg ht] at h
      cases h

theorem repairSettings_good (kvs : List (Str × JVal)) :
    ∃ m, jGet (repairSettings kvs).1 keySettings = some (.jobj m) := by
  rcases hg : jGet kvs keySettings with _ | v
  · simp only [repairSettings, hg]
    exact ⟨[], jGet_jSet_self kvs keySettings (.jobj [])⟩
  · cases v <;> simp only [repairSettings, hg] <;>
      first
        | exact ⟨_, rfl⟩
        | exact ⟨[], jGet_jSet_self kvs keySettings (.jobj [])⟩

theorem repairSettings_preserve (kvs : List (Str × JVal)) {k : Str}
    (h : keySettings ≠ k) :
    jGet (repairSettings kvs).1 k = jGet kvs k := by
  rcases hg : jGet kvs keySettings with _ | v
  · simp only [repairSettings, hg]
    exact jGet_jSet_ne kvs (.jobj []) h
  · cases v <;> simp only [repairSettings, hg] <;>
      first
        | rfl
        | exact jGet_jSet_ne kvs (.jobj []) h

theorem repairSettings_unchanged (kvs : List (Str × JVal))
    (h : (repairSettings kvs).2 = false) : (repairSettings kvs).1 = kvs := by
  rcases hg : jGet kvs keySettings with _ | v
  · simp only [repairSettings, hg] at h
    cases h
  · cases v <;> simp only [repairSettings, hg] at h ⊢ <;> first
      | rfl
      | cases h

theorem repairMeta_unchanged (kvs : List (Str × JVal))
    (h : (repairMeta kvs).2 = false) :
    jGet kvs keyMeta = some (.jobj (repairMeta kvs).1) := by
  rcases hg : jGet kvs keyMeta with _ | v
  · simp only [repairMeta, hg] at h
    cases h
  · cases v <;> simp only [repairMeta, hg] at h ⊢ <;> first
      | exact hg
      | cases h

theorem repairDescField_good (wsName : Str) (m : List (Str × JVal)) :
    (jGet (repairDescField wsName m).1 keyDescription).isSome = true := by
  by_cases h : (jGet m keyDescription).isSome
  · simp only [repairDescField, if_pos h]
    exact h
  · simp only [repairDescField, if_neg h]
    rw [jGet_jSet_self]
    rfl

theorem repairDescField_unchanged (wsName : Str) (m : List (Str × JVal))
    (h : (repairDescField wsName m).2 = false) :
    (repairDescField wsName m).1 = m ∧
    (jGet m keyDescription).isSome = true := by
  by_cases hp : (jGet m keyDescription).isSome
  · simp only [repairDescField, if_pos hp]
    exact ⟨trivial, hp⟩
  · simp only [repairDescField, if_neg hp] at h
    cases h

theorem repairTagsField_good (m : List (Str × JVal)) :
    ∃ xs, jGet (repairTagsField m).1 keyTags = some (.jarr xs) := by
  rcases hg : jGet m keyTags with _ | v
  · simp only [repairTagsField, hg]
    exact ⟨[], jGet_jSet_self m keyTags (.jarr [])⟩
  · cases v <;> simp only [repairTagsField, hg] <;>
      first
        | exact ⟨_, rfl⟩
        | exact ⟨[], jGet_jSet_self m keyTags (.jarr [])⟩

theorem repairTagsField_preserve (m : List (Str × JVal)) {k : Str}
    (h : keyTags ≠ k) :
    jGet (repairTagsField m).1 k = jGet m k := by
  rcases hg : jGet m keyTags with _ | v
  · simp only [repairTagsField, hg]
    exact jGet_jSet_ne m (.jarr []) h
  · cases v <;> simp only [repairTagsField, hg] <;>
      first
        | rfl
        | exact jGet_jSet_ne m (.jarr []) h

theorem repairTagsField_unchanged (m : List (Str × JVal))
    (h : (repairTagsField m).2 = false) :
    (repairTagsField m).1 = m ∧ ∃ xs, jGet m keyTags = some (.jarr xs) := by
  rcases hg : jGet m keyTags with _ | v
  · simp only [repairTagsField, hg] at h
    cases h
  · cases v <;> simp only [repairTagsField, hg] at h ⊢ <;> first
      | exact ⟨trivial, _, rfl⟩
      | cases h

theorem repairDoc_not_obj {wsName : Str} {d : JVal}
    (h : ∀ kvs, d ≠ .jobj kvs) : repairDoc wsName d = none := by
  cases d <;> first
    | rfl
    | exact absurd rfl (h _)

/-- A repaired document satisfies every structural requirement. -/
theorem repairDoc_repaired {wsName : Str} {d d' : JVal} {ch : Bool}
    (h : repairDoc wsName d = some (d', ch)) : repairedB d' = true := by
  cases d with
  | jobj kvs0 =>
    rcases hr1 : repairFolders kvs0 with ⟨kvs1, c1⟩
    rcases hr2 : repairSettings kvs1 with ⟨kvs2, c2⟩
    rcases hrm : repairMeta kvs2 with ⟨m0, cm⟩
    rcases hr3 : repairDescField wsName m0 with ⟨m1, c3⟩
    rcases hr4 : repairTagsField m1 with ⟨m2, c4⟩
    simp only [repairDoc, hr1, hr2, hrm, hr3, hr4] at h
    rw [Option.some.injEq, Prod.mk.injEq] at h
    obtain ⟨hX, hC⟩ := h
    subst hX
    have hsf : jGet kvs2 keyFolders = jGet kvs1 keyFolders := by
      have := repairSettings_preserve kvs1 keySettings_ne_keyFolders
      rw [hr2] at this
      exact this
    obtain ⟨vF, hvF0, hvT⟩ := repairFolders_good kvs0
    have hvF : jGet kvs1 keyFolders = some vF := by
      rw [hr1] at hvF0
      exact hvF0
    obtain ⟨mS, hmS0⟩ := repairSettings_good kvs1
    have hmS : jGet kvs2 keySettings = some (.jobj mS) := by
      rw [hr2] at hmS0
      exact hmS0
    have hM : ∃ m, jGet (if (cm || c3 || c4) = true then
          jSet kvs2 keyMeta (.jobj m2) else kvs2) keyMeta = some (.jobj m) ∧
        (jGet m keyDescription).isSome = true ∧
        (∃ xs, jGet m keyTags = some (.jarr xs)) := by
      cases hB : (cm || c3 || c4) with
      | true =>
        rw [if_pos rfl]
        refine ⟨m2, jGet_jSet_self kvs2 keyMeta (.jobj m2), ?_, ?_⟩
        · have hp0 := repairTagsField_preserve m1 keyTags_ne_keyDescription
          have hp : jGet m2 keyDescription = jGet m1 keyDescription := by
            rw [hr4] at hp0
            exact hp0
          rw [hp]
          have hg0 := repairDescField_good wsName m0
          have hg : (jGet m1 keyDescription).isSome = true := by
            rw [hr3] at hg0
            exact hg0
          exact hg
        · have hg0 := repairTagsField_good m1
          have hg : ∃ xs, jGet m2 keyTags = some (.jarr xs) := by
            rw [hr4] at hg0
            exact hg0
          exact hg
      | false =>
        rw [if_neg Bool.false_ne_true]
        rw [Bool.or_eq_false_iff, Bool.or_eq_false_iff] at hB
        obtain ⟨⟨hcm, hc3⟩, hc4⟩ := hB
        have hmu0 := repairMeta_unchanged kvs2 (by rw [hrm]; exact hcm)
        have hmu : jGet kvs2 keyMeta = some (.jobj m0) := by
          rw [hrm] at hmu0
          exact hmu0
        have h3u0 := repairDescField_unchanged wsName m0
          (by rw [hr3]; exact hc3)
        have h3u : m1 = m0 ∧ (jGet m0 keyDescription).isSome = true := by
          rw [hr3] at h3u0
          exact h3u0
        have h4u0 := repairTagsField_unchanged m1 (by rw [hr4]; exact hc4)
        have h4u : m2 = m1 ∧ ∃ xs, jGet m1 keyTags = some (.jarr xs) := by
          rw [hr4] at h4u0
          exact h4u0
        refine ⟨m0, hmu, h3u.2, ?_⟩
        obtain ⟨xs, hxs⟩ := h4u.2
        rw [h3u.1] at hxs
        exact ⟨xs, hxs⟩
    obtain ⟨m, hm1, hm2, xs, hm3⟩ := hM
    have hF : jGet (if (cm || c3 || c4) = true then
        jSet kvs2 keyMeta (.jobj m2) else kvs2) keyFolders = some vF := by
      cases hB : (cm || c3 || c4) with
      | true =>
        rw [if_pos rfl]
        rw [jGet_jSet_ne kvs2 (.jobj m2) keyMeta_ne_keyFolders, hsf, hvF]
      | false =>
        rw [if_neg Bool.false_ne_true]
        rw [hsf, hvF]
    have hS : jGet (if (cm || c3 || c4) = true then
        jSet kvs2 keyMeta (.jobj m2) else kvs2) keySettings
          = some (.jobj mS) := by
      cases hB : (cm || c3 || c4) with
      | true =>
        rw [if_pos rfl]
        rw [jGet_jSet_ne kvs2 (.jobj m2) keyMeta_ne_keySettings, hmS]
      | false =>
        rw [if_neg Bool.false_ne_true]
        rw [hmS]
    simp only [repairedB, hF, hS, hm1, hm2, hm3, hvT]
    simp
  | jnull => simp [repairDoc] at h
  | jbool b => simp [repairDoc] at h
  | jnum n => simp [repairDoc] at h
  | jstr s => simp [repairDoc] at h
  | jarr xs => simp [repairDoc] at h

/-- A repair that reports no change returns the document unchanged. -/
theorem repairDoc_unchanged {wsName : Str} {d d' : JVal}
    (h : repairDoc wsName d = some (d', false)) : d' = d := by
  cases d with
  | jobj kvs0 =>
    rcases hr1 : repairFolders kvs0 with ⟨kvs1, c1⟩
    rcases hr2 : repairSettings kvs1 with ⟨kvs2, c2⟩
    rcases hrm : repairMeta kvs2 with ⟨m0, cm⟩
    rcases hr3 : repairDescField wsName m0 with ⟨m1, c3⟩
    rcases hr4 : repairTagsField m1 with ⟨m2, c4⟩
    simp only [repairDoc, hr1, hr2, hrm, hr3, hr4] at h
    rw [Option.some.injEq, Prod.mk.injEq] at h
    obtain ⟨hX, hC⟩ := h
    rw [Bool.or_eq_false_iff, Bool.or_eq_false_iff, Bool.or_eq_false_iff,
      Bool.or_eq_false_iff] at hC
    obtain ⟨⟨⟨⟨hc1, hc2⟩, hcm⟩, hc3⟩, hc4⟩ := hC
    have h1u0 := repairFolders_unchanged kvs0 (by rw [hr1]; exact hc1)
    have h1u : kvs1 = kvs0 := by
      rw [hr1] at h1u0
      exact h1u0
    have h2u0 := repairSettings_unchanged kvs1 (by rw [hr2]; exact hc2)
    have h2u : kvs2 = kvs1 := by
      rw [hr2] at h2u0
      exact h2u0
    rw [← hX, hcm, hc3, hc4]
    simp [h2u, h1u]
  | jnull => simp [repairDoc] at h
  | jbool b => simp [repairDoc] at h
  | jnum n => simp [repairDoc] at h
  | jstr s => simp [repairDoc] at h
  | jarr xs => simp [repairDoc] at h

/-- A document that already satisfies every requirement is read and left
alone: the repair returns it unchanged and unflagged. -/
theorem repairedB_noop {d : JVal} (h : repairedB d = true) (wsName : Str) :
    repairDoc wsName d = some (d, false) := by
  cases d with
  | jobj kvs =>
    simp only [repairedB] at h
    rw [Bool.and_eq_true, Bool.and_eq_true] at h
    obtain ⟨⟨hF, hS⟩, hM⟩ := h
    rcases hgF : jGet kvs keyFolders with _ | vF <;> rw [hgF] at hF
    · cases hF
    rcases hgS : jGet kvs keySettings with _ | vS <;> rw [hgS] at hS
    · cases hS
    rcases hgM : jGet kvs keyMeta with _ | vM <;> rw [hgM] at hM
    · cases hM
    cases vS <;> try cases hS
    cases vM <;> try cases hM
    rename_i ms m
    rw [Bool.and_eq_true] at hM
    obtain ⟨hMd, hMt⟩ := hM
    rcases hgT : jGet m keyTags with _ | vT <;> rw [hgT] at hMt
    · cases hMt
    cases vT <;> try cases hMt
    rename_i xs
    replace hF : jTruthy vF = true := hF
    have e1 : repairFolders kvs = (kvs, false) := by
      simp [repairFolders, hgF, hF]
    have e2 : repairSettings kvs = (kvs, false) := by
      simp [repairSettings, hgS]
    have em : repairMeta kvs = (m, false) := by
      simp [repairMeta, hgM]
    have e3 : repairDescField wsName m = (m, false) := by
      simp [repairDescField, hMd]
    have e4 : repairTagsField m = (m, false) := by
      simp [repairTagsField, hgT]
    simp [repairDoc, e1, e2, em, e3, e4]
  | jnull => cases h
  | jbool b => cases h
  | jnum n => cases h
  | jstr s => cases h
  | jarr xs => cases h

theorem storeGet_storeSet_self {store : Store} {p : Str} {d : JVal}
    (v : JVal) (h : storeGet store p = some d) :
    storeGet (storeSet store p v) p = some v := by
  induction store with
  | nil => cases h
  | cons q rest ih =>
    rcases q with ⟨a, w⟩
    by_cases ha : a = p
    · unfold storeSet
      rw [List.map_cons]
      show storeGet ((if a = p then (p, some v) else (a, w)) :: _) p = _
      rw [if_pos ha]
      show (if p = p then some v else _) = _
      rw [if_pos rfl]
    · unfold storeGet at h
      rw [if_neg ha] at h
      unfold storeSet
      rw [List.map_cons]
      show storeGet ((if a = p then (p, some v) else (a, w)) :: _) p = _
      rw [if_neg ha]
      show (if a = p then w else storeGet (storeSet rest p v) p) = _
      rw [if_neg ha]
      exact ih h

theorem storeGet_storeSet_ne {p q : Str} (store : Store) (v : JVal)
    (h : p ≠ q) : storeGet (storeSet store p v) q = storeGet store q := by
  induction store with
  | nil => rfl
  | cons e rest ih =>
    rcases e with ⟨a, w⟩
    unfold storeSet
    rw [List.map_cons]
    show storeGet ((if a = p then (p, some v) else (a, w)) :: _) q = _
    by_cases ha : a = p
    · rw [if_pos ha]
      show (if p = q then some v else storeGet (storeSet rest p v) q) = _
      rw [if_neg h, ih]
      show _ = (if a = q then w else storeGet rest q)
      rw [if_neg (by rw [ha]; exact h)]
    · rw [if_neg ha]
      show (if a = q then w else storeGet (storeSet rest p v) q) = _
      by_cases haq : a = q
      · rw [if_pos haq]
        show _ = (if a = q then w else storeGet rest q)
        rw [if_pos haq]
      · rw [if_neg haq, ih]
        show _ = (if a = q then w else storeGet rest q)
        rw [if_neg haq]

theorem repairPass_nil (store : Store) : repairPass [] store = (store, 0) :=
  rfl

theorem repairPass_cons (name p : Str) (rest : List (Str × Str))
    (store : Store) :
    repairPass ((name, p) :: rest) store =
      (match storeGet store p with
       | none => repairPass rest store
       | some d =>
         match repairDoc name d with
         | none => repairPass rest store
         | some (d', ch) =>
           if ch then
             ((repairPass rest (storeSet store p d')).1,
              (repairPass rest (storeSet store p d')).2 + 1)
           else repairPass rest store) := rfl

theorem stableVal_of_repaired {d : JVal} (h : repairedB d = true) :
    stableVal (some d) = true := by
  cases d <;> first
    | exact h
    | cases h

theorem stableVal_some_noop {d : JVal} (h : stableVal (some d) = true)
    (name : Str) :
    repairDoc name d = none ∨ repairDoc name d = some (d, false) := by
  cases d with
  | jobj kvs => exact Or.inr (repairedB_noop (d := .jobj kvs) h name)
  | jnull => exact Or.inl rfl
  | jbool b => exact Or.inl rfl
  | jnum n => exact Or.inl rfl
  | jstr s => exact Or.inl rfl
  | jarr xs => exact Or.inl rfl

theorem repairDoc_none_stable {name : Str} {d : JVal}
    (h : repairDoc name d = none) : stableVal (some d) = true := by
  cases d <;> first
    | rfl
    | (exfalso; revert h; simp [repairDoc])

/-- Values the pass cannot modify are preserved verbatim through a whole
pass. -/
theorem repairPass_preserves_stable :
    ∀ (rows : List (Str × Str)) (store : Store) (p : Str),
      stableVal (storeGet store p) = true →
      storeGet (repairPass rows store).1 p = storeGet store p := by
  intro rows
  induction rows with
  | nil => intro store p _; rfl
  | cons x rest ih =>
    rcases x with ⟨name, q⟩
    intro store p hstable
    rw [repairPass_cons]
    split
    · exact ih store p hstable
    · rename_i d hq
      split
      · exact ih store p hstable
      · rename_i d' ch hr
        split
        · rename_i hch
          show storeGet (repairPass rest (storeSet store q d')).1 p = _
          by_cases hpq : q = p
          · subst hpq
            rw [hq] at hstable
            subst hch
            rcases stableVal_some_noop hstable name with hn | hn <;>
              rw [hn] at hr
            · cases hr
            · cases hr
          · have hpres : storeGet (storeSet store q d') p = storeGet store p :=
              storeGet_storeSet_ne store d' hpq
            rw [ih (storeSet store q d') p (by rw [hpres]; exact hstable),
              hpres]
        · exact ih store p hstable

/-- After a pass, the value at every processed row's path is one the pass
can no longer modify. -/
theorem repairPass_row_stable :
    ∀ (rows : List (Str × Str)) (store : Store) (x : Str × Str), x ∈ rows →
      stableVal (storeGet (repairPass rows store).1 x.2) = true := by
  intro rows
  induction rows with
  | nil => intro store x hx; cases hx
  | cons y rest ih =>
    rcases y with ⟨name, q⟩
    intro store x hx
    rw [repairPass_cons]
    split
    · rename_i hq
      rcases List.mem_cons.mp hx with hhead | hx'
      · have : x.2 = q := by rw [hhead]
        rw [this, repairPass_preserves_stable rest store q
          (by rw [hq]; rfl), hq]
        rfl
      · exact ih store x hx'
    · rename_i d hq
      split
      · rename_i hr
        rcases List.mem_cons.mp hx with hhead | hx'
        · have hx2 : x.2 = q := by rw [hhead]
          have hst : stableVal (storeGet store q) = true := by
            rw [hq]
            exact repairDoc_none_stable hr
          rw [hx2, repairPass_preserves_stable rest store q hst, hq]
          exact repairDoc_none_stable hr
        · exact ih store x hx'
      · rename_i d' ch hr
        split
        · rename_i hch
          subst hch
          show stableVal
            (storeGet (repairPass rest (storeSet store q d')).1 x.2) = true
          rcases List.mem_cons.mp hx with hhead | hx'
          · have hx2 : x.2 = q := by rw [hhead]
            have hself : storeGet (storeSet store q d') q = some d' :=
              storeGet_storeSet_self d' hq
            have hst : stableVal (storeGet (storeSet store q d') q) = true := by
              rw [hself]
              exact stableVal_of_repaired (repairDoc_repaired hr)
            rw [hx2, repairPass_preserves_stable rest (storeSet store q d')
              q hst]
            exact hst
          · exact ih (storeSet store q d') x hx'
        · rename_i hch
          have hchf : ch = false := by
            cases ch
            · rfl
            · exact absurd rfl hch
          subst hchf
          rcases List.mem_cons.mp hx with hhead | hx'
          · have hx2 : x.2 = q := by rw [hhead]
            have hst : stableVal (storeGet store q) = true := by
              rw [hq]
              have hd : d' = d := repairDoc_unchanged hr
              exact stableVal_of_repaired (hd ▸ repairDoc_repaired hr)
            rw [hx2, repairPass_preserves_stable rest store q hst]
            exact hst
          · exact ih store x hx'

/-- A pass over rows whose paths all hold unmodifiable values does
nothing. -/
theorem repairPass_noop :
    ∀ (rows : List (Str × Str)) (store : Store),
      (∀ x ∈ rows, stableVal (storeGet store x.2) = true) →
      repairPass rows store = (store, 0) := by
  intro rows
  induction rows with
  | nil => intro store _; rfl
  | cons y rest ih =>
    rcases y with ⟨name, q⟩
    intro store hall
    rw [repairPass_cons]
    have hqs : stableVal (storeGet store q) = true := hall (name, q) (by simp)
    split
    · exact ih store (fun x hx => hall x (List.mem_cons_of_mem _ hx))
    · rename_i d hq
      rw [hq] at hqs
      split
      · exact ih store (fun x hx => hall x (List.mem_cons_of_mem _ hx))
      · rename_i d' ch hr
        rcases stableVal_some_noop hqs name with hn | hn <;> rw [hn] at hr
        · cases hr
        · rw [Option.some.injEq, Prod.mk.injEq] at hr
          obtain ⟨hd, hc⟩ := hr
          rw [← hc]
          simp only [if_neg Bool.false_ne_true]
          exact ih store (fun x hx => hall x (List.mem_cons_of_mem _ hx))

/-! ## C7: the claim -/

/-- C7: the repair pass is idempotent — running it again over the tree it
just produced modifies zero files and leaves the store identical — and a
file that already satisfies all structural requirements is left untouched
by the pass.  The pass returns the count of files it modified. -/
theorem repair_pass_idempotent :
    ∀ (rows : List (Str × Str)) (store : Store),
      repairPass rows (repairPass rows store).1
        = ((repairPass rows store).1, 0) ∧
      (∀ p d, storeGet store p = some d → repairedB d = true →
        storeGet (repairPass rows store).1 p = some d) := by
  intro rows store
  constructor
  · exact repairPass_noop rows (repairPass rows store).1
      (fun x hx => repairPass_row_stable rows store x hx)
  · intro p d hp hrep
    rw [repairPass_preserves_stable rows store p
      (by rw [hp]; exact stableVal_of_repaired hrep)]
    exact hp

/-- Witness for C7: on the concrete store with one malformed and one
well-formed file, a second pass changes nothing and the well-formed file's
contents survive the first pass verbatim. -/
theorem repair_pass_idempotent_witness :
    repairPass rowsEx (repairPass rowsEx storeEx).1
      = ((repairPass rowsEx storeEx).1, 0) ∧
    storeGet (repairPass rowsEx storeEx).1 pathB = some docGood :=
  ⟨(repair_pass_idempotent rowsEx storeEx).1,
   (repair_pass_idempotent rowsEx storeEx).2 pathB docGood rfl rfl⟩

end VSCL
